import Mathlib

/-!
Verification development for the Dolev-Strong broadcast simulator
(`market_sim.consensus`, `market_sim.agents`, `market_sim.simulation`).

Wire messages are the pipe-delimited strings of the source, modelled as
lists of characters.  `Node` mirrors the `Node` class of
`market_sim/consensus/__init__.py`; the agents simulation of
`market_sim/agents/__init__.py` is embedded as a deterministic state
machine in which every call of the global pseudo-random source consumes
one value of an explicit stream `adv : Nat -> Nat`.
-/

namespace DolevStrong

/-- A wire message: the pipe-delimited string exchanged between parties. -/
abbrev Wire := List Char

/-- Shorthand turning a string literal into a wire. -/
def lit (s : String) : Wire := s.toList

/-- Python `s.split(chrPipe)` for one-character separator: every occurrence of
the pipe character splits, empty fields are kept. -/
def splitPipe : Wire → List Wire
  | [] => [[]]
  | c :: cs =>
    match splitPipe cs with
    | [] => [[c]]
    | w :: ws => if c = '|' then [] :: w :: ws else (c :: w) :: ws

/-- Python `chrPipe.join(parts)`. -/
def interPipe : List Wire → Wire
  | [] => []
  | [w] => w
  | w :: ws => w ++ '|' :: interPipe ws

/-- The character of a single decimal digit (0..9). -/
def digitChar : Nat → Char
  | 0 => '0' | 1 => '1' | 2 => '2' | 3 => '3' | 4 => '4'
  | 5 => '5' | 6 => '6' | 7 => '7' | 8 => '8' | _ => '9'

/-- Fuel-driven little-endian-to-big-endian decimal printer (the fuel makes
the definition structural, so that the kernel can evaluate it). -/
def natDigitsCore : Nat → Nat → List Char → List Char
  | 0, _, acc => acc
  | fuel + 1, n, acc =>
    if n < 10 then digitChar n :: acc
    else natDigitsCore fuel (n / 10) (digitChar (n % 10) :: acc)

/-- Python `str(n)` for a natural number. -/
def natDigits (n : Nat) : List Char := natDigitsCore (n + 1) n []

/-- Python `str(i)` for an integer. -/
def intChars (i : Int) : List Char :=
  if i < 0 then '-' :: natDigits i.natAbs else natDigits i.toNat

/-- Value of one decimal digit character. -/
def digitVal? (c : Char) : Option Nat :=
  if c = '0' then some 0 else if c = '1' then some 1 else
  if c = '2' then some 2 else if c = '3' then some 3 else
  if c = '4' then some 4 else if c = '5' then some 5 else
  if c = '6' then some 6 else if c = '7' then some 7 else
  if c = '8' then some 8 else if c = '9' then some 9 else none

/-- Accumulating decimal parser over a character list. -/
def parseDigitsAux : List Char → Nat → Option Nat
  | [], acc => some acc
  | c :: cs, acc =>
    match digitVal? c with
    | none => none
    | some v => parseDigitsAux cs (acc * 10 + v)

/-- Nonempty all-digit parse. -/
def pyNat : List Char → Option Nat
  | [] => none
  | c :: cs => parseDigitsAux (c :: cs) 0

/-- Model of Python `int(s)` on the strings this program produces: an
optional sign followed by decimal digits; any other field fails (raising
`ValueError` in the source). -/
def pyInt : Wire → Option Int
  | '-' :: rest => (pyNat rest).map (fun k => -(k : Int))
  | '+' :: rest => (pyNat rest).map (fun k => (k : Int))
  | cs => (pyNat cs).map (fun k => (k : Int))

/-- Python `[int(s) for s in parts]`: left-to-right, the first failing field
raises (we record the offending field as the error). -/
def pyIntList : List Wire → Except Wire (List Int)
  | [] => .ok []
  | s :: rest =>
    match pyInt s with
    | none => .error s
    | some v =>
      match pyIntList rest with
      | .error e => .error e
      | .ok vs => .ok (v :: vs)

/-- Serialization of a payload with a signer chain:
`payload ++ pipe ++ pipe-joined decimal ids`.  This is exactly the shape
built by `Node.sign`, the relay emission in `Node.receive`, and the
injection in `ConsensusAgent.run_consensus`. -/
def mkWire (p : Wire) (sgl : List Int) : Wire :=
  p ++ '|' :: interPipe (sgl.map intChars)

/-- Chain length of a wire message: number of pipe-separated fields after
the payload field. -/
def chainLen (m : Wire) : Nat := (splitPipe m).length - 1

/-- The `Node` class of `market_sim/consensus/__init__.py`.  The Python
`extracted` set is modelled as a duplicate-free list in insertion order
(the code only inserts after a membership test). -/
structure Node where
  node_id : Int
  f : Nat
  is_byzantine : Bool
  extracted : List Wire
deriving DecidableEq, Repr

/-- Placeholder node used as the default of out-of-range list reads
(which do not occur in the executions we reason about). -/
def dummyNode : Node := ⟨0, 0, false, []⟩

/-- Embedding of `Node.sign`: append a pipe and the own id. -/
def Node.sign (nd : Node) (message : Wire) : Wire :=
  message ++ '|' :: intChars nd.node_id

/-- Embedding of `Node.verify`: split, require at least two fields, and check the string
fields after the first for distinctness and count at most f+2. -/
def Node.verify (nd : Node) (signed_message : Wire) : Bool :=
  let parts := splitPipe signed_message
  if parts.length < 2 then false
  else
    let signers := parts.drop 1
    decide signers.Nodup && decide (signers.length ≤ nd.f + 2)

/-- Loop body of `Node.receive` for a single inbound message.  Mirrors the
source order: split; skip when fewer than two fields; parse the signer
fields as ints (a non-integer field raises, modelled as `.error`); skip
when `verify` fails; skip when the first signer is not 0; skip when the
payload was already extracted; otherwise extract and, when the own id has
not signed yet, emit the countersigned relay. -/
def Node.receiveMsg (nd : Node) (msg : Wire) : Except Wire (Node × List Wire) :=
  match splitPipe msg with
  | payload :: sfirst :: srest =>
    match pyIntList (sfirst :: srest) with
    | .error e => .error e
    | .ok signers =>
      if nd.verify msg = false then .ok (nd, [])
      else if 0 < signers.length ∧ signers.headD 0 ≠ 0 then .ok (nd, [])
      else if payload ∈ nd.extracted then .ok (nd, [])
      else
        let nd2 := { nd with extracted := nd.extracted ++ [payload] }
        if nd.node_id ∈ signers then .ok (nd2, [])
        else .ok (nd2, [mkWire payload (signers ++ [nd.node_id])])
  | _ => .ok (nd, [])

/-- Embedding of `Node.receive`: fold of `receiveMsg` over the inbound bag, collecting
relay emissions; an exception in any message aborts the whole call. -/
def Node.receive (nd : Node) (round_msgs : List Wire) : Except Wire (Node × List Wire) :=
  match round_msgs with
  | [] => .ok (nd, [])
  | m :: rest =>
    match nd.receiveMsg m with
    | .error e => .error e
    | .ok (nd1, out1) =>
      match nd1.receive rest with
      | .error e => .error e
      | .ok (nd2, out2) => .ok (nd2, out1 ++ out2)

/-- Embedding of `Node.decide`: the single extracted payload when there is exactly one,
otherwise the default value 0. -/
def Node.decide (nd : Node) : Wire :=
  match nd.extracted with
  | [v] => v
  | _ => lit "0"

/-! ## The consensus harness `DolevStrongConsensus` -/

/-- The `DolevStrongConsensus` class. -/
structure DolevStrongConsensus where
  total_nodes : Nat
  f : Nat
  sender_id : Nat
  nodes : List Node
deriving DecidableEq, Repr

/-- Embedding of `DolevStrongConsensus.__init__`: builds the node list.  Faithfully to
the source, no validation of the parameters is performed. -/
def dsInit (total_nodes : Nat) (f : Nat) (byzantine_nodes : List Nat)
    (sender_id : Nat) : DolevStrongConsensus :=
  ⟨total_nodes, f, sender_id,
    (List.range total_nodes).map
      (fun i => ⟨Int.ofNat i, f, byzantine_nodes.contains i, []⟩)⟩

/-- Index-aware in-place map used to model the per-recipient queue updates
(index argument counts from `k`). -/
def mapWithIdx (g : Nat → α → α) : Nat → List α → List α
  | _, [] => []
  | k, x :: xs => g k x :: mapWithIdx g (k + 1) xs

/-- Distribution step of `DolevStrongConsensus.run_consensus`: extend the
next-round queue of every node other than the emitter. -/
def distributeL (i : Nat) (out : List Wire) (q : List (List Wire)) : List (List Wire) :=
  mapWithIdx (fun j b => if j = i then b else b ++ out) 0 q

/-- One polling pass of `DolevStrongConsensus.run_consensus` over the node
ids: every node with a nonempty queue runs `receive` and its emissions are
distributed to all other queues. -/
def dsPoll : List Nat → List Node → List (List Wire) → List (List Wire) →
    Except Wire (List Node × List (List Wire))
  | [], nodes, _, nxt => .ok (nodes, nxt)
  | i :: ids, nodes, cur, nxt =>
    let bag := cur.getD i []
    if bag.isEmpty then dsPoll ids nodes cur nxt
    else
      match (nodes.getD i dummyNode).receive bag with
      | .error e => .error e
      | .ok (nd1, outgoing) =>
        dsPoll ids (nodes.set i nd1) cur (distributeL i outgoing nxt)

/-- Rounds 1..f+1 of `DolevStrongConsensus.run_consensus`. -/
def dsRounds (n : Nat) : Nat → List Node → List (List Wire) → Except Wire (List Node)
  | 0, nodes, _ => .ok nodes
  | k + 1, nodes, queues =>
    match dsPoll (List.range n) nodes queues (List.replicate n []) with
    | .error e => .error e
    | .ok (nodes1, queues1) => dsRounds n k nodes1 queues1

/-- Embedding of `DolevStrongConsensus.run_consensus`: reset, round 0 (sender signs the
initial value and the copies are put in every non-sender queue), rounds
1..f+1, then the decision phase.  Returns the final nodes and the decision
of each node in id order. -/
def DolevStrongConsensus.run_consensus (cfg : DolevStrongConsensus)
    (initial_value : Wire) : Except Wire (List Node × List Wire) :=
  let nodes := cfg.nodes.map (fun nd => { nd with extracted := [] })
  let sender := nodes.getD cfg.sender_id dummyNode
  let round_messages := List.replicate (cfg.total_nodes - 1) (sender.sign initial_value)
  let message_queues := (List.range cfg.total_nodes).map
    (fun i => if i = cfg.sender_id then []
              else [round_messages.getD (if cfg.sender_id < i then i - 1 else i) []])
  match dsRounds cfg.total_nodes (cfg.f + 1) nodes message_queues with
  | .error e => .error e
  | .ok finalNodes => .ok (finalNodes, finalNodes.map Node.decide)

/-! ## The agents simulation `ConsensusAgent.run_consensus`

Each agent (`ConsensusAgent`) is a wrapper around a `Node` with
`agent.id = node.node_id`; the wrapper is inlined here and the agent list
is indexed by id, as in the callers of `market_sim/simulation/__init__.py`.
Every call of the global `random` source consumes one value of the
explicit stream `adv`, restoring the seedability stated by the spec. -/

/-- Observable protocol events of one simulation run: `recv` records one
invocation of `Node.receive` on an inbound bag, `emit` records one message
returned by such an invocation (with the emitter and its Byzantine flag). -/
inductive Event where
  | recv (agent : Nat) (bag : List Wire)
  | emit (byz : Bool) (agent : Nat) (msg : Wire)
deriving DecidableEq, Repr

/-- Model of `random.random() < 0.5` on the k-th draw of the stream. -/
def randCoin (adv : Nat → Nat) (k : Nat) : Bool := adv k % 2 = 0

/-- Model of `random.choice(pool)` on the k-th draw of the stream. -/
def randChoice (adv : Nat → Nat) (k : Nat) (pool : List Wire) : Wire :=
  pool.getD (adv k % pool.length) []

/-- Pool of `ConsensusAgent.propose` for a Byzantine sender. -/
def proposePool : List Wire := [lit "sell", lit "hold", lit "attack", lit "corrupt"]

/-- Per-recipient equivocation pool of the Byzantine round-0 branch. -/
def equivPool (i : Nat) : List Wire :=
  [lit "sell", lit "hold", lit "attack", lit "fake_" ++ natDigits i]

/-- Corrupt-relay replacement pool. -/
def corruptPool : List Wire := [lit "fake", lit "noise", lit "byzantine", lit "evil"]

/-- Injection pool. -/
def injectPool : List Wire := [lit "sell", lit "panic", lit "crash", lit "exploit"]

/-- Embedding of `ConsensusAgent.propose`: a Byzantine sender signs a random pool value
(consuming one draw), an honest sender signs the proposed value. -/
def propose (adv : Nat → Nat) (ctr : Nat) (nd : Node) (value : Wire) : Wire × Nat :=
  if nd.is_byzantine then (nd.sign (randChoice adv ctr proposePool), ctr + 1)
  else (nd.sign value, ctr)

/-- State threaded through one simulation run.  `cur` and `nxt` model the
Python dicts `current_messages` and `next_round_messages`: `none` is an
absent key, `some bag` a present key.  `err` records an uncaught
exception; once set, the remaining steps do nothing (the run aborted). -/
structure SimSt where
  nodes : List Node
  cur : List (Option (List Wire))
  nxt : List (Option (List Wire))
  ctr : Nat
  trace : List Event
  err : Bool
deriving Repr

/-- Fresh nodes of the agents simulation (`ConsensusAgent.__init__` with
reset `extracted`). -/
def mkNodes (n : Nat) (f : Nat) (byz : List Nat) : List Node :=
  (List.range n).map (fun i => ⟨Int.ofNat i, f, byz.contains i, []⟩)

/-- One enumeration step of the Byzantine round-0 branch: skip the sender,
otherwise draw an equivocation value, sign it and address it to agent i. -/
def byzR0Step (adv : Nat → Nat) (sender : Node)
    (acc : List (Nat × Wire) × Nat) (i : Nat) : List (Nat × Wire) × Nat :=
  if i = 0 then acc
  else (acc.1 ++ [(i, sender.sign (randChoice adv acc.2 (equivPool i)))], acc.2 + 1)

/-- Round-0 message list `(recipient, message)` with the randomness counter:
a Byzantine sender draws a per-recipient equivocation value, an honest
sender broadcasts `propose` of the proposed value. -/
def round0Msgs (adv : Nat → Nat) (n : Nat) (nodes : List Node) (value : Wire) :
    List (Nat × Wire) × Nat :=
  if (nodes.getD 0 dummyNode).is_byzantine then
    (List.range n).foldl (byzR0Step adv (nodes.getD 0 dummyNode)) ([], 0)
  else
    (((List.range n).filterMap
        (fun i => if i = 0 then none
                  else some (i, (propose adv 0 (nodes.getD 0 dummyNode) value).1))),
      (propose adv 0 (nodes.getD 0 dummyNode) value).2)

/-- Delivery of one round-0 message into the per-recipient dict (key
creation plus append). -/
def deliverStep (q : List (Option (List Wire))) (rm : Nat × Wire) :
    List (Option (List Wire)) :=
  q.set rm.1 (some ((q.getD rm.1 none).getD [] ++ [rm.2]))

/-- Delivery of the round-0 messages into the per-recipient dict. -/
def buildQueues (n : Nat) (msgs : List (Nat × Wire)) : List (Option (List Wire)) :=
  msgs.foldl deliverStep (List.replicate n none)

/-- Shared body of the bag-processing sites whose return value the source
discards (the round-0 processing block and the per-round display block):
run `receive`, record the invocation and its emissions, and keep only the
node mutation. -/
def recvAt (st : SimSt) (i : Nat) : SimSt :=
  match st.cur.getD i none with
  | none => st
  | some bag =>
    let nd := st.nodes.getD i dummyNode
    match nd.receive bag with
    | .error _ => { st with trace := st.trace ++ [Event.recv i bag], err := true }
    | .ok (nd1, out) =>
      { st with nodes := st.nodes.set i nd1,
                trace := st.trace ++ Event.recv i bag :: out.map (Event.emit nd.is_byzantine i) }

/-- Round-0 processing block (`agents/__init__.py` lines 59-63): every
non-sender agent with a present key runs `receive`; emissions discarded. -/
def round0Step (st : SimSt) (i : Nat) : SimSt :=
  if st.err then st
  else if i = 0 then st
  else recvAt st i

/-- Corrupt-relay fold of a Byzantine agent over its fresh emissions: per
message one coin draw, and on heads (when the message has at least two
fields) one pool draw replacing the payload while keeping the string
fields of the chain. -/
def corruptFold (adv : Nat → Nat) : Nat → List Wire → List Wire × Nat
  | ctr, [] => ([], ctr)
  | ctr, m :: ms =>
    if randCoin adv ctr then
      let parts := splitPipe m
      if 2 ≤ parts.length then
        let m2 := randChoice adv (ctr + 1) corruptPool ++ '|' :: interPipe (parts.drop 1)
        let r := corruptFold adv (ctr + 2) ms
        (m2 :: r.1, r.2)
      else
        let r := corruptFold adv (ctr + 1) ms
        (m :: r.1, r.2)
    else
      let r := corruptFold adv (ctr + 1) ms
      (m :: r.1, r.2)

/-- Queue update distributing emissions to every agent other than the
emitter; an absent key is created (Python `dict` key creation plus
`extend`). -/
def distribute (i : Nat) (out : List Wire) (q : List (Option (List Wire))) :
    List (Option (List Wire)) :=
  mapWithIdx (fun j b => if j = i then b else some (b.getD [] ++ out)) 0 q

/-- Main relay step of one round for agent `i` (`agents/__init__.py` lines
71-98): when the agent has a present key, run `receive`, apply the
corrupt-relay hook for a Byzantine agent with nonempty emissions, and
distribute the result into the next-round queues. -/
def mainStep (adv : Nat → Nat) (st : SimSt) (i : Nat) : SimSt :=
  if st.err then st
  else
    match st.cur.getD i none with
    | none => st
    | some bag =>
      match (st.nodes.getD i dummyNode).receive bag with
      | .error _ => { st with trace := st.trace ++ [Event.recv i bag], err := true }
      | .ok (nd1, new_msgs) =>
        { st with
            nodes := st.nodes.set i nd1,
            nxt := distribute i
              (if (st.nodes.getD i dummyNode).is_byzantine && !new_msgs.isEmpty then
                  (corruptFold adv st.ctr new_msgs).1
                else new_msgs) st.nxt,
            ctr :=
              if (st.nodes.getD i dummyNode).is_byzantine && !new_msgs.isEmpty then
                (corruptFold adv st.ctr new_msgs).2
              else st.ctr,
            trace := st.trace ++
              Event.recv i bag :: new_msgs.map
                (Event.emit (st.nodes.getD i dummyNode).is_byzantine i) }

/-- Injection step of one round for agent `i` (`agents/__init__.py` lines
101-116): a Byzantine agent draws a coin and on heads injects a fabricated
message with chain sender-id, own-id to every other agent. -/
def injStep (adv : Nat → Nat) (st : SimSt) (i : Nat) : SimSt :=
  if st.err then st
  else if (st.nodes.getD i dummyNode).is_byzantine then
    if randCoin adv st.ctr then
      { st with ctr := st.ctr + 2,
                nxt := distribute i
                  [mkWire (randChoice adv (st.ctr + 1) injectPool)
                    [0, (st.nodes.getD i dummyNode).node_id]] st.nxt }
    else { st with ctr := st.ctr + 1 }
  else st

/-- Display step (`agents/__init__.py` lines 121-127): after the queue
swap, every agent with a present key runs `receive` again on the
next-round bag; the emissions are discarded. -/
def displayStep (st : SimSt) (i : Nat) : SimSt :=
  if st.err then st else recvAt st i

/-- One round of the agents simulation: main relay pass, injection pass,
queue swap, display pass. -/
def roundStep (adv : Nat → Nat) (n : Nat) (st : SimSt) : SimSt :=
  let st1 := (List.range n).foldl (mainStep adv) { st with nxt := List.replicate n none }
  let st2 := (List.range n).foldl (injStep adv) st1
  let st3 := { st2 with cur := st2.nxt }
  (List.range n).foldl displayStep st3

/-- Result of one agents-simulation run: final nodes, the per-agent
decisions (as read off by the simulation drivers via `node.decide()`), the
event trace, and whether an exception aborted the run. -/
structure RunResult where
  nodes : List Node
  decisions : List Wire
  trace : List Event
  err : Bool
deriving Repr

/-- Embedding of `ConsensusAgent.run_consensus` driven on a fresh agent population:
round 0 (sender emission, delivery, processing block), then f+1 rounds,
then the decision phase. -/
def runAgents (n : Nat) (f : Nat) (byz : List Nat) (value : Wire)
    (adv : Nat → Nat) : RunResult :=
  let nodes0 := mkNodes n f byz
  let r0 := round0Msgs adv n nodes0 value
  let st0 : SimSt := ⟨nodes0, buildQueues n r0.1, List.replicate n none, r0.2, [], false⟩
  let st1 := (List.range n).foldl round0Step st0
  let stF := (List.range (f + 1)).foldl (fun s _ => roundStep adv n s) st1
  ⟨stF.nodes, stF.nodes.map Node.decide, stF.trace, stF.err⟩

/-- Number of Byzantine ids among the actual participants. -/
def byzCount (n : Nat) (byz : List Nat) : Nat :=
  ((List.range n).filter (fun i => byz.contains i)).length

/-- Bounded-chain check of one trace event: an emission of an honest (non
Byzantine) party must carry a chain of length at most f+2; every other
event is unconstrained. -/
def goodEvent (f : Nat) : Event → Bool
  | .emit false _ m => decide (chainLen m ≤ f + 2)
  | _ => true

/-- Adversary stream of the first counterexample run: the Byzantine agent
injects (pool index 1, the panic token) in round 1 and stays quiet
afterwards. -/
def advInj : Nat → Nat := fun k => if k = 0 then 0 else 1

/-- Adversary stream that never fires a coin (all draws odd). -/
def advQuiet : Nat → Nat := fun _ => 1

/-- Shape constraint tying the simulated node list to the configuration:
node i carries id i, the fault bound f and the configured Byzantine flag. -/
def NodeShape (n f : Nat) (byz : List Nat) (nodes : List Node) : Prop :=
  nodes.length = n ∧ ∀ i, i < n →
    (nodes.getD i dummyNode).node_id = Int.ofNat i ∧
    (nodes.getD i dummyNode).f = f ∧
    (nodes.getD i dummyNode).is_byzantine = byz.contains i

/-- A bag already consumed by a node: running `receive` on it again
changes nothing and emits nothing. -/
def Absorbed (nd : Node) (bag : List Wire) : Prop :=
  nd.receive bag = .ok (nd, [])

/-- Invariant carried between the rounds of an agents-simulation run. -/
def Inv (n f : Nat) (byz : List Nat) (st : SimSt) : Prop :=
  st.err = false ∧
  NodeShape n f byz st.nodes ∧
  (∀ e ∈ st.trace, goodEvent f e = true) ∧
  (∀ i, i < n → ∀ bag, st.cur.getD i none = some bag →
     Absorbed (st.nodes.getD i dummyNode) bag)

/-- Queue whose present entries are all empty bags. -/
def EmptyQ (q : List (Option (List Wire))) : Prop :=
  ∀ j, q.getD j none = none ∨ q.getD j none = some []

/-- An injected message: a pipe-free pool value with the fabricated chain
sender-id, Byzantine-id. -/
def InjShape (n : Nat) (byz : List Nat) (m : Wire) : Prop :=
  ∃ v b, '|' ∉ v ∧ b < n ∧ byz.contains b = true ∧ m = mkWire v [0, Int.ofNat b]

/-- Queue whose present entries hold only injected messages. -/
def InjQ (n : Nat) (byz : List Nat) (q : List (Option (List Wire))) : Prop :=
  ∀ j bag, q.getD j none = some bag → ∀ m ∈ bag, InjShape n byz m

/-- Queue whose present entries hold only serialized messages with chains
of at most f+1 signers (so a countersigned relay stays within f+2). -/
def BoundedQ (f : Nat) (q : List (Option (List Wire))) : Prop :=
  ∀ j bag, q.getD j none = some bag → ∀ m ∈ bag,
    ∃ p sgl, '|' ∉ p ∧ sgl ≠ [] ∧ sgl.length ≤ f + 1 ∧ m = mkWire p sgl

/-! ## List index helpers -/

theorem length_mapWithIdx (g : Nat → α → α) (k : Nat) (l : List α) :
    (mapWithIdx g k l).length = l.length := by
  induction l generalizing k with
  | nil => rfl
  | cons x xs ih => simp [mapWithIdx, ih]

theorem getD_mapWithIdx (g : Nat → α → α) (k : Nat) (l : List α) (j : Nat) (d : α)
    (h : j < l.length) :
    (mapWithIdx g k l).getD j d = g (k + j) (l.getD j d) := by
  induction l generalizing k j with
  | nil => simp at h
  | cons x xs ih =>
    cases j with
    | zero => simp [mapWithIdx]
    | succ j' =>
      have hk : k + (j' + 1) = (k + 1) + j' := by omega
      simp only [mapWithIdx, List.getD_cons_succ, hk]
      exact ih (k + 1) j' (Nat.lt_of_succ_lt_succ h)

theorem getD_set_self (l : List α) (i : Nat) (a d : α) (h : i < l.length) :
    (l.set i a).getD i d = a := by
  induction l generalizing i with
  | nil => simp at h
  | cons x xs ih =>
    cases i with
    | zero => rfl
    | succ i' => exact ih i' (Nat.lt_of_succ_lt_succ h)

theorem getD_set_ne (l : List α) (i j : Nat) (a d : α) (h : i ≠ j) :
    (l.set i a).getD j d = l.getD j d := by
  induction l generalizing i j with
  | nil => rfl
  | cons x xs ih =>
    cases i with
    | zero =>
      cases j with
      | zero => exact absurd rfl h
      | succ j' => rfl
    | succ i' =>
      cases j with
      | zero => rfl
      | succ j' => exact ih i' j' (fun hc => h (by rw [hc]))

theorem set_getD_self (l : List α) (i : Nat) (d : α) (h : i < l.length) :
    l.set i (l.getD i d) = l := by
  induction l generalizing i with
  | nil => rfl
  | cons x xs ih =>
    cases i with
    | zero => rfl
    | succ i' =>
      show x :: xs.set i' (xs.getD i' d) = x :: xs
      rw [ih i' (Nat.lt_of_succ_lt_succ h)]

theorem getD_of_length_le (l : List α) (j : Nat) (d : α) (h : l.length ≤ j) :
    l.getD j d = d := by
  induction l generalizing j with
  | nil => cases j <;> rfl
  | cons x xs ih =>
    cases j with
    | zero => simp at h
    | succ j' => exact ih j' (Nat.le_of_succ_le_succ h)

theorem getD_replicate_none (n j : Nat) :
    (List.replicate n (none : Option α)).getD j none = none := by
  induction n generalizing j with
  | zero => cases j <;> rfl
  | succ n' ih =>
    cases j with
    | zero => rfl
    | succ j' => exact ih j'

/-! ## splitPipe and interPipe -/

theorem splitPipe_ne_nil (s : Wire) : splitPipe s ≠ [] := by
  cases s with
  | nil => exact fun h => List.noConfusion h
  | cons c cs =>
    unfold splitPipe
    rcases h : splitPipe cs with _ | ⟨w, ws⟩
    · exact fun hc => List.noConfusion hc
    · by_cases hc : c = '|' <;> simp [hc]

theorem splitPipe_no_pipe (p : Wire) (hp : '|' ∉ p) : splitPipe p = [p] := by
  induction p with
  | nil => rfl
  | cons c cs ih =>
    have hc : ¬ c = '|' := fun h => hp (h ▸ List.mem_cons_self c cs)
    have hcs : '|' ∉ cs := fun h => hp (List.mem_cons_of_mem c h)
    unfold splitPipe
    rw [ih hcs]
    simp [hc]

theorem splitPipe_cons (c : Char) (cs : Wire) :
    splitPipe (c :: cs) =
      match splitPipe cs with
      | [] => [[c]]
      | w :: ws => if c = '|' then [] :: w :: ws else (c :: w) :: ws := rfl

theorem splitPipe_append_pipe (p r : Wire) (hp : '|' ∉ p) :
    splitPipe (p ++ '|' :: r) = p :: splitPipe r := by
  induction p with
  | nil =>
    show splitPipe ('|' :: r) = [] :: splitPipe r
    rw [splitPipe_cons]
    rcases h : splitPipe r with _ | ⟨w, ws⟩
    · exact absurd h (splitPipe_ne_nil r)
    · simp
  | cons c cs ih =>
    have hc : ¬ c = '|' := fun h => hp (h ▸ List.mem_cons_self c cs)
    have hcs : '|' ∉ cs := fun h => hp (List.mem_cons_of_mem c h)
    show splitPipe (c :: (cs ++ '|' :: r)) = (c :: cs) :: splitPipe r
    rw [splitPipe_cons, ih hcs]
    simp [hc]

theorem splitPipe_interPipe (ws : List Wire) (hne : ws ≠ [])
    (h : ∀ w ∈ ws, '|' ∉ w) : splitPipe (interPipe ws) = ws := by
  induction ws with
  | nil => exact absurd rfl hne
  | cons w ws' ih =>
    cases ws' with
    | nil => exact splitPipe_no_pipe w (h w (List.mem_cons_self w []))
    | cons w2 ws'' =>
      show splitPipe (w ++ '|' :: interPipe (w2 :: ws'')) = w :: w2 :: ws''
      rw [splitPipe_append_pipe _ _ (h w (List.mem_cons_self w _)),
        ih (fun hc => List.noConfusion hc)
          (fun x hx => h x (List.mem_cons_of_mem w hx))]

/-! ## Decimal printing and parsing -/

theorem natDigitsCore_fuel (fuel n : Nat) (acc : List Char) (h : n < fuel) :
    natDigitsCore fuel n acc = natDigitsCore (n + 1) n acc := by
  induction fuel using Nat.strong_induction_on generalizing n acc with
  | _ fuel ih =>
    match fuel, h with
    | fu + 1, h =>
      by_cases h10 : n < 10
      · simp [natDigitsCore, h10]
      · have hd : n / 10 < n := Nat.div_lt_self (by omega) (by omega)
        simp only [natDigitsCore, h10, if_false]
        rw [ih fu (by omega) _ _ (by omega), ih n (by omega) _ _ hd]

theorem natDigitsCore_acc (fuel n : Nat) (acc : List Char) (h : n < fuel) :
    natDigitsCore fuel n acc = natDigitsCore fuel n [] ++ acc := by
  induction fuel using Nat.strong_induction_on generalizing n acc with
  | _ fuel ih =>
    match fuel, h with
    | fu + 1, h =>
      by_cases h10 : n < 10
      · simp [natDigitsCore, h10]
      · have hd : n / 10 < n := Nat.div_lt_self (by omega) (by omega)
        have hfu : n / 10 < fu := by omega
        simp only [natDigitsCore, h10, if_false]
        rw [ih fu (by omega) _ _ hfu, ih fu (by omega) _ (digitChar (n % 10) :: []) hfu,
          List.append_assoc]
        rfl

theorem natDigits_eq (n : Nat) :
    natDigits n =
      if n < 10 then [digitChar n]
      else natDigits (n / 10) ++ [digitChar (n % 10)] := by
  by_cases h10 : n < 10
  · simp only [if_pos h10]
    show natDigitsCore (n + 1) n [] = [digitChar n]
    simp [natDigitsCore, h10]
  · have hd : n / 10 < n := Nat.div_lt_self (by omega) (by omega)
    simp only [if_neg h10]
    show natDigitsCore (n + 1) n [] = natDigits (n / 10) ++ [digitChar (n % 10)]
    rw [show natDigitsCore (n + 1) n [] = natDigitsCore n (n / 10) [digitChar (n % 10)] from
        by simp [natDigitsCore, h10]]
    rw [natDigitsCore_fuel n (n / 10) _ hd, natDigitsCore_acc (n / 10 + 1) (n / 10) _ (by omega)]
    rfl

theorem natDigits_mem (n : Nat) : ∀ c ∈ natDigits n, ∃ k, k < 10 ∧ c = digitChar k := by
  induction n using Nat.strong_induction_on with
  | _ n ih =>
    rw [natDigits_eq]
    by_cases h10 : n < 10
    · simp only [if_pos h10]
      intro c hc
      rw [List.mem_singleton] at hc
      exact ⟨n, h10, hc⟩
    · simp only [if_neg h10]
      intro c hc
      rcases List.mem_append.mp hc with h | h
      · exact ih (n / 10) (Nat.div_lt_self (by omega) (by omega)) c h
      · rw [List.mem_singleton] at h
        exact ⟨n % 10, Nat.mod_lt _ (by omega), h⟩

theorem digitChar_ne_pipe : ∀ k, k < 10 → digitChar k ≠ '|' := by decide

theorem digitChar_ne_minus : ∀ k, k < 10 → digitChar k ≠ '-' := by decide

theorem digitChar_ne_plus : ∀ k, k < 10 → digitChar k ≠ '+' := by decide

theorem digitVal?_digitChar : ∀ k, k < 10 → digitVal? (digitChar k) = some k := by decide

theorem natDigits_no_pipe (n : Nat) : '|' ∉ natDigits n := by
  intro hc
  rcases natDigits_mem n '|' hc with ⟨k, hk, he⟩
  exact digitChar_ne_pipe k hk he.symm

theorem natDigits_ne_nil (n : Nat) : natDigits n ≠ [] := by
  rw [natDigits_eq]
  by_cases h10 : n < 10 <;> simp [h10]

theorem parseDigitsAux_append (xs ys : List Char) (a : Nat) :
    parseDigitsAux (xs ++ ys) a =
      match parseDigitsAux xs a with
      | none => none
      | some r => parseDigitsAux ys r := by
  induction xs generalizing a with
  | nil => rfl
  | cons c cs ih =>
    simp only [List.cons_append, parseDigitsAux]
    cases digitVal? c with
    | none => rfl
    | some v => exact ih _

theorem parseDigitsAux_natDigits (n a : Nat) :
    parseDigitsAux (natDigits n) a = some (a * 10 ^ (natDigits n).length + n) := by
  induction n using Nat.strong_induction_on generalizing a with
  | _ n ih =>
    rw [natDigits_eq]
    by_cases h10 : n < 10
    · simp only [if_pos h10]
      show parseDigitsAux [digitChar n] a = _
      simp only [parseDigitsAux, digitVal?_digitChar n h10, List.length_singleton]
      norm_num
    · have hd : n / 10 < n := Nat.div_lt_self (by omega) (by omega)
      simp only [if_neg h10]
      rw [parseDigitsAux_append, ih (n / 10) hd a]
      show parseDigitsAux [digitChar (n % 10)] _ = _
      simp only [parseDigitsAux, digitVal?_digitChar (n % 10) (Nat.mod_lt _ (by omega)),
        List.length_append, List.length_singleton]
      have hmod := Nat.div_add_mod n 10
      rw [pow_succ]
      congr 1
      ring_nf
      omega

theorem pyNat_natDigits (n : Nat) : pyNat (natDigits n) = some n := by
  rcases h : natDigits n with _ | ⟨c, cs⟩
  · exact absurd h (natDigits_ne_nil n)
  · show parseDigitsAux (c :: cs) 0 = some n
    rw [← h, parseDigitsAux_natDigits]
    simp

theorem pyInt_not_sign (c : Char) (cs : List Char) (hm : c ≠ '-') (hp : c ≠ '+') :
    pyInt (c :: cs) = (pyNat (c :: cs)).map (fun k => (k : Int)) := by
  unfold pyInt
  split
  · rename_i rest heq
    injection heq with h1 _
    exact absurd h1 hm
  · rename_i rest heq
    injection heq with h1 _
    exact absurd h1 hp
  · rfl

theorem pyInt_natDigits (n : Nat) : pyInt (natDigits n) = some (n : Int) := by
  rcases h : natDigits n with _ | ⟨c, cs⟩
  · exact absurd h (natDigits_ne_nil n)
  · have hcmem : c ∈ natDigits n := by rw [h]; exact List.mem_cons_self c cs
    rcases natDigits_mem n c hcmem with ⟨k, hk, rfl⟩
    rw [pyInt_not_sign _ cs (digitChar_ne_minus k hk) (digitChar_ne_plus k hk), ← h,
      pyNat_natDigits]
    rfl

theorem pyInt_intChars (i : Int) : pyInt (intChars i) = some i := by
  unfold intChars
  by_cases hneg : i < 0
  · simp only [if_pos hneg]
    show (pyNat (natDigits i.natAbs)).map (fun k => -(k : Int)) = some i
    rw [pyNat_natDigits]
    show some (-(i.natAbs : Int)) = some i
    congr 1
    omega
  · simp only [if_neg hneg]
    rw [pyInt_natDigits]
    congr 1
    omega

theorem intChars_injective : Function.Injective intChars := by
  intro a b h
  have := pyInt_intChars a
  rw [h, pyInt_intChars b] at this
  exact (Option.some_injective _ this).symm

theorem intChars_no_pipe (i : Int) : '|' ∉ intChars i := by
  unfold intChars
  by_cases hneg : i < 0
  · simp only [if_pos hneg]
    intro h
    rcases List.mem_cons.mp h with h | h
    · exact absurd h (by decide)
    · exact natDigits_no_pipe _ h
  · simp only [if_neg hneg]
    exact natDigits_no_pipe _

theorem pyIntList_map_intChars (sgl : List Int) :
    pyIntList (sgl.map intChars) = .ok sgl := by
  induction sgl with
  | nil => rfl
  | cons s rest ih =>
    show pyIntList (intChars s :: rest.map intChars) = .ok (s :: rest)
    unfold pyIntList
    rw [pyInt_intChars, ih]

/-! ## mkWire facts -/

theorem splitPipe_mkWire (p : Wire) (sgl : List Int) (hp : '|' ∉ p) (hne : sgl ≠ []) :
    splitPipe (mkWire p sgl) = p :: sgl.map intChars := by
  unfold mkWire
  rw [splitPipe_append_pipe _ _ hp,
    splitPipe_interPipe (sgl.map intChars) (by simpa using hne)
      (by intro w hw; rcases List.mem_map.mp hw with ⟨i, _, rfl⟩; exact intChars_no_pipe i)]

theorem chainLen_mkWire (p : Wire) (sgl : List Int) (hp : '|' ∉ p) (hne : sgl ≠ []) :
    chainLen (mkWire p sgl) = sgl.length := by
  unfold chainLen
  rw [splitPipe_mkWire p sgl hp hne]
  simp

theorem nodup_map_intChars (sgl : List Int) :
    (sgl.map intChars).Nodup ↔ sgl.Nodup :=
  List.nodup_map_iff intChars_injective

/-! ## The receive loop body on serialized messages -/

theorem verify_mkWire (nd : Node) (p : Wire) (sgl : List Int)
    (hp : '|' ∉ p) (hne : sgl ≠ []) :
    nd.verify (mkWire p sgl) =
      (decide sgl.Nodup && decide (sgl.length ≤ nd.f + 2)) := by
  unfold Node.verify
  rw [splitPipe_mkWire p sgl hp hne]
  have hlen : ¬ (p :: sgl.map intChars).length < 2 := by
    rcases sgl with _ | ⟨a, b⟩
    · exact absurd rfl hne
    · simp
  simp only [hlen, if_false, List.drop_succ_cons, List.drop_zero, List.length_map]
  congr 1
  exact decide_eq_decide.mpr (nodup_map_intChars sgl)

theorem receiveMsg_mkWire (nd : Node) (p : Wire) (sgl : List Int)
    (hp : '|' ∉ p) (hne : sgl ≠ []) :
    nd.receiveMsg (mkWire p sgl) =
      if ¬ (sgl.Nodup ∧ sgl.length ≤ nd.f + 2) then .ok (nd, [])
      else if sgl.headD 0 ≠ 0 then .ok (nd, [])
      else if p ∈ nd.extracted then .ok (nd, [])
      else if nd.node_id ∈ sgl then
        .ok ({ nd with extracted := nd.extracted ++ [p] }, [])
      else
        .ok ({ nd with extracted := nd.extracted ++ [p] },
          [mkWire p (sgl ++ [nd.node_id])]) := by
  obtain ⟨s0, stl, rfl⟩ : ∃ s0 stl, sgl = s0 :: stl := by
    cases sgl with
    | nil => exact absurd rfl hne
    | cons a b => exact ⟨a, b, rfl⟩
  unfold Node.receiveMsg
  rw [splitPipe_mkWire p (s0 :: stl) hp hne]
  simp only [List.map]
  rw [show pyIntList (intChars s0 :: List.map intChars stl) = .ok (s0 :: stl) from
    pyIntList_map_intChars (s0 :: stl)]
  dsimp only
  by_cases hval : (s0 :: stl).Nodup ∧ (s0 :: stl).length ≤ nd.f + 2
  · have hv : nd.verify (mkWire p (s0 :: stl)) = true := by
      rw [verify_mkWire nd p _ hp hne]
      simp only [Bool.and_eq_true, decide_eq_true_eq]
      exact ⟨hval.1, hval.2⟩
    rw [hv, if_neg (by decide : ¬ (true = false)), if_neg (not_not_intro hval)]
    by_cases h0 : (s0 :: stl).headD 0 ≠ 0
    · have hguard : 0 < (s0 :: stl).length ∧ (s0 :: stl).headD 0 ≠ 0 := ⟨by simp, h0⟩
      rw [if_pos hguard, if_pos h0]
    · have hguard : ¬ (0 < (s0 :: stl).length ∧ (s0 :: stl).headD 0 ≠ 0) :=
        fun hcon => h0 hcon.2
      rw [if_neg hguard, if_neg h0]
  · have hv : nd.verify (mkWire p (s0 :: stl)) = false := by
      rw [verify_mkWire nd p _ hp hne]
      refine Bool.eq_false_iff.mpr ?_
      simp only [ne_eq, Bool.and_eq_true, decide_eq_true_eq]
      exact fun hcon => hval hcon
    rw [hv, if_pos rfl, if_pos hval]

/-! ## Frame, stability and absorption of receive -/

theorem verify_congr (nd nd2 : Node) (m : Wire) (hf : nd2.f = nd.f) :
    nd2.verify m = nd.verify m := by
  unfold Node.verify
  rw [hf]

theorem receive_cons (nd : Node) (m : Wire) (rest : List Wire) :
    nd.receive (m :: rest) =
      match nd.receiveMsg m with
      | .error e => .error e
      | .ok (nd1, out1) =>
        match nd1.receive rest with
        | .error e => .error e
        | .ok (nd2, out2) => .ok (nd2, out1 ++ out2) := rfl

theorem ok_pair_inj {α β γ : Type} {a c : α} {b d : β}
    (h : (Except.ok (a, b) : Except γ (α × β)) = .ok (c, d)) : a = c ∧ b = d := by
  injection h with h1
  exact ⟨congrArg Prod.fst h1, congrArg Prod.snd h1⟩

theorem receiveMsg_frame {nd : Node} {m : Wire} {nd1 : Node} {out : List Wire}
    (h : nd.receiveMsg m = .ok (nd1, out)) :
    nd1.node_id = nd.node_id ∧ nd1.f = nd.f ∧ nd1.is_byzantine = nd.is_byzantine ∧
    ∀ x ∈ nd.extracted, x ∈ nd1.extracted := by
  rcases hsp : splitPipe m with _ | ⟨payload, _ | ⟨sfirst, srest⟩⟩ <;>
    simp only [Node.receiveMsg, hsp] at h
  · obtain ⟨rfl, rfl⟩ := ok_pair_inj h
    exact ⟨rfl, rfl, rfl, fun x hx => hx⟩
  · obtain ⟨rfl, rfl⟩ := ok_pair_inj h
    exact ⟨rfl, rfl, rfl, fun x hx => hx⟩
  · rcases hil : pyIntList (sfirst :: srest) with e | signers <;> simp only [hil] at h
    · exact Except.noConfusion h
    · by_cases hv : nd.verify m = false
      · rw [if_pos hv] at h
        obtain ⟨rfl, rfl⟩ := ok_pair_inj h
        exact ⟨rfl, rfl, rfl, fun x hx => hx⟩
      · rw [if_neg hv] at h
        by_cases hg : 0 < signers.length ∧ signers.headD 0 ≠ 0
        · rw [if_pos hg] at h
          obtain ⟨rfl, rfl⟩ := ok_pair_inj h
          exact ⟨rfl, rfl, rfl, fun x hx => hx⟩
        · rw [if_neg hg] at h
          by_cases hmem : payload ∈ nd.extracted
          · rw [if_pos hmem] at h
            obtain ⟨rfl, rfl⟩ := ok_pair_inj h
            exact ⟨rfl, rfl, rfl, fun x hx => hx⟩
          · rw [if_neg hmem] at h
            by_cases hid : nd.node_id ∈ signers
            · rw [if_pos hid] at h
              obtain ⟨heq, rfl⟩ := ok_pair_inj h
              rw [← heq]
              exact ⟨rfl, rfl, rfl, fun x hx => by simp [hx]⟩
            · rw [if_neg hid] at h
              obtain ⟨heq, rfl⟩ := ok_pair_inj h
              rw [← heq]
              exact ⟨rfl, rfl, rfl, fun x hx => by simp [hx]⟩

theorem receiveMsg_stable {nd : Node} {m : Wire} {nd1 : Node} {out : List Wire}
    (h : nd.receiveMsg m = .ok (nd1, out)) (nd2 : Node)
    (hf : nd2.f = nd.f)
    (hsub : ∀ x ∈ nd1.extracted, x ∈ nd2.extracted) :
    nd2.receiveMsg m = .ok (nd2, []) := by
  rcases hsp : splitPipe m with _ | ⟨payload, _ | ⟨sfirst, srest⟩⟩ <;>
    simp only [Node.receiveMsg, hsp] at h ⊢
  · rcases hil : pyIntList (sfirst :: srest) with e | signers <;> simp only [hil] at h ⊢
    · exact Except.noConfusion h
    · rw [verify_congr nd nd2 m hf]
      by_cases hv : nd.verify m = false
      · rw [if_pos hv]
      · rw [if_neg hv] at h ⊢
        by_cases hg : 0 < signers.length ∧ signers.headD 0 ≠ 0
        · rw [if_pos hg]
        · rw [if_neg hg] at h ⊢
          have hpx : payload ∈ nd1.extracted := by
            by_cases hmem : payload ∈ nd.extracted
            · rw [if_pos hmem] at h
              obtain ⟨rfl, _⟩ := ok_pair_inj h
              exact hmem
            · rw [if_neg hmem] at h
              by_cases hid : nd.node_id ∈ signers
              · rw [if_pos hid] at h
                obtain ⟨heq, _⟩ := ok_pair_inj h
                rw [← heq]
                simp
              · rw [if_neg hid] at h
                obtain ⟨heq, _⟩ := ok_pair_inj h
                rw [← heq]
                simp
          rw [if_pos (hsub payload hpx)]

theorem receive_frame {nd : Node} {bag : List Wire} {nd' : Node} {out : List Wire}
    (h : nd.receive bag = .ok (nd', out)) :
    nd'.node_id = nd.node_id ∧ nd'.f = nd.f ∧ nd'.is_byzantine = nd.is_byzantine ∧
    ∀ x ∈ nd.extracted, x ∈ nd'.extracted := by
  induction bag generalizing nd out with
  | nil =>
    obtain ⟨rfl, rfl⟩ : nd = nd' ∧ [] = out := by
      simpa [Node.receive] using h
    exact ⟨rfl, rfl, rfl, fun x hx => hx⟩
  | cons m rest ih =>
    rw [receive_cons] at h
    rcases h1 : nd.receiveMsg m with e | ⟨nd1, out1⟩ <;> simp only [h1] at h
    · exact Except.noConfusion h
    · rcases h2 : nd1.receive rest with e | ⟨nd2, out2⟩ <;> simp only [h2] at h
      · exact Except.noConfusion h
      · obtain ⟨rfl, rfl⟩ := ok_pair_inj h
        obtain ⟨ha1, ha2, ha3, ha4⟩ := receiveMsg_frame h1
        obtain ⟨hb1, hb2, hb3, hb4⟩ := ih h2
        exact ⟨hb1.trans ha1, hb2.trans ha2, hb3.trans ha3,
          fun x hx => hb4 x (ha4 x hx)⟩

theorem receive_absorbed {nd : Node} {bag : List Wire} {nd' : Node} {out : List Wire}
    (h : nd.receive bag = .ok (nd', out)) :
    nd'.receive bag = .ok (nd', []) := by
  induction bag generalizing nd out with
  | nil =>
    obtain ⟨rfl, _⟩ := ok_pair_inj (show (Except.ok (nd, []) : Except Wire (Node × List Wire)) = .ok (nd', out) from h)
    rfl
  | cons m rest ih =>
    rw [receive_cons] at h
    rcases h1 : nd.receiveMsg m with e | ⟨nd1, out1⟩ <;> simp only [h1] at h
    · exact Except.noConfusion h
    · rcases h2 : nd1.receive rest with e | ⟨nd2, out2⟩ <;> simp only [h2] at h
      · exact Except.noConfusion h
      · obtain ⟨rfl, rfl⟩ := ok_pair_inj h
        obtain ⟨hb1, hb2, hb3, hb4⟩ := receive_frame h2
        have hstep : nd2.receiveMsg m = .ok (nd2, []) :=
          receiveMsg_stable h1 nd2 (by rw [hb2, (receiveMsg_frame h1).2.1])
            (fun x hx => hb4 x hx)
        have hrest : nd2.receive rest = .ok (nd2, []) := ih h2
        rw [receive_cons]
        simp [hstep, hrest]

theorem receiveMsg_mkWire_cases (nd : Node) (p : Wire) (sgl : List Int)
    (hp : '|' ∉ p) (hne : sgl ≠ []) :
    ∃ ndx outx, nd.receiveMsg (mkWire p sgl) = .ok (ndx, outx) ∧
      ndx.node_id = nd.node_id ∧ ndx.f = nd.f ∧ ndx.is_byzantine = nd.is_byzantine ∧
      (outx = [] ∨ (outx = [mkWire p (sgl ++ [nd.node_id])] ∧ sgl.length ≤ nd.f + 2)) := by
  rw [receiveMsg_mkWire nd p sgl hp hne]
  by_cases hval : sgl.Nodup ∧ sgl.length ≤ nd.f + 2
  · rw [if_neg (not_not_intro hval)]
    by_cases h0 : sgl.headD 0 ≠ 0
    · rw [if_pos h0]
      exact ⟨nd, [], rfl, rfl, rfl, rfl, Or.inl rfl⟩
    · rw [if_neg h0]
      by_cases hmem : p ∈ nd.extracted
      · rw [if_pos hmem]
        exact ⟨nd, [], rfl, rfl, rfl, rfl, Or.inl rfl⟩
      · rw [if_neg hmem]
        by_cases hid : nd.node_id ∈ sgl
        · rw [if_pos hid]
          exact ⟨_, [], rfl, rfl, rfl, rfl, Or.inl rfl⟩
        · rw [if_neg hid]
          exact ⟨_, _, rfl, rfl, rfl, rfl, Or.inr ⟨rfl, hval.2⟩⟩
  · rw [if_pos hval]
    exact ⟨nd, [], rfl, rfl, rfl, rfl, Or.inl rfl⟩

theorem receive_shaped (nd : Node) (bag : List Wire) (Q : Wire → List Int → Prop)
    (hb : ∀ m ∈ bag, ∃ p sgl, '|' ∉ p ∧ sgl ≠ [] ∧ Q p sgl ∧ m = mkWire p sgl) :
    ∃ nd' out, nd.receive bag = .ok (nd', out) ∧
      ∀ m' ∈ out, ∃ p sgl, '|' ∉ p ∧ sgl ≠ [] ∧ Q p sgl ∧
        m' = mkWire p (sgl ++ [nd.node_id]) := by
  induction bag generalizing nd with
  | nil => exact ⟨nd, [], rfl, by simp⟩
  | cons m rest ih =>
    obtain ⟨p, sgl, hp, hne, hQ, rfl⟩ := hb _ (List.mem_cons_self m rest)
    obtain ⟨ndx, outx, hrm, hid, hf, _, houtx⟩ := receiveMsg_mkWire_cases nd p sgl hp hne
    obtain ⟨nd', out2, hrec, hout2⟩ :=
      ih ndx (fun m hm => hb m (List.mem_cons_of_mem _ hm))
    refine ⟨nd', outx ++ out2, ?_, ?_⟩
    · rw [receive_cons]
      simp [hrm, hrec]
    · intro m' hm'
      rcases List.mem_append.mp hm' with hl | hr
      · rcases houtx with rfl | ⟨rfl, hbound⟩
        · simp at hl
        · rw [List.mem_singleton] at hl
          exact ⟨p, sgl, hp, hne, hQ, hl⟩
      · obtain ⟨p2, sgl2, hp2, hne2, hQ2, heq2⟩ := hout2 m' hr
        rw [hid] at heq2
        exact ⟨p2, sgl2, hp2, hne2, hQ2, heq2⟩

/-! ## Pools, node construction, queue updates -/

theorem injectPool_no_pipe (k : Nat) : '|' ∉ injectPool.getD k [] := by
  match k with
  | 0 => decide
  | 1 => decide
  | 2 => decide
  | 3 => decide
  | k + 4 =>
    rw [getD_of_length_le]
    · exact List.not_mem_nil '|'
    · show injectPool.length ≤ k + 4
      simp [injectPool]

theorem equivPool_no_pipe (i k : Nat) : '|' ∉ (equivPool i).getD k [] := by
  match k with
  | 0 => show '|' ∉ lit "sell"; decide
  | 1 => show '|' ∉ lit "hold"; decide
  | 2 => show '|' ∉ lit "attack"; decide
  | 3 =>
    show '|' ∉ lit "fake_" ++ natDigits i
    intro h
    rcases List.mem_append.mp h with h | h
    · exact absurd h (by decide)
    · exact natDigits_no_pipe i h
  | k + 4 =>
    rw [getD_of_length_le]
    · exact List.not_mem_nil '|'
    · show (equivPool i).length ≤ k + 4
      simp [equivPool]

theorem mkNodes_shape (n f : Nat) (byz : List Nat) :
    NodeShape n f byz (mkNodes n f byz) := by
  constructor
  · simp [mkNodes]
  · intro i hi
    have hl : i < ((List.range n).map
        (fun i => (⟨Int.ofNat i, f, byz.contains i, []⟩ : Node))).length := by
      simp [hi]
    unfold mkNodes
    rw [List.getD_eq_getElem _ dummyNode hl]
    simp

theorem byzCount_pos (n : Nat) (byz : List Nat) (b : Nat)
    (hb : b < n) (hbyz : byz.contains b = true) : 0 < byzCount n byz := by
  unfold byzCount
  have hmem : b ∈ (List.range n).filter (fun i => byz.contains i) :=
    List.mem_filter.mpr ⟨List.mem_range.mpr hb, hbyz⟩
  exact List.length_pos.mpr (List.ne_nil_of_mem hmem)

theorem length_distribute (i : Nat) (out : List Wire) (q : List (Option (List Wire))) :
    (distribute i out q).length = q.length := length_mapWithIdx _ _ _

theorem getD_distribute (i : Nat) (out : List Wire) (q : List (Option (List Wire)))
    (j : Nat) :
    (distribute i out q).getD j none =
      if j < q.length then
        (if j = i then q.getD j none else some ((q.getD j none).getD [] ++ out))
      else none := by
  by_cases hj : j < q.length
  · rw [if_pos hj]
    unfold distribute
    rw [getD_mapWithIdx _ 0 q j none hj]
    simp
  · rw [if_neg hj]
    exact getD_of_length_le _ _ _ (by rw [length_distribute]; omega)

theorem distribute_nil_EmptyQ (i : Nat) (q : List (Option (List Wire)))
    (hq : EmptyQ q) : EmptyQ (distribute i [] q) := by
  intro j
  rw [getD_distribute]
  by_cases hj : j < q.length
  · rw [if_pos hj]
    by_cases hij : j = i
    · rw [if_pos hij]
      exact hq j
    · rw [if_neg hij]
      rcases hq j with h | h <;> rw [h] <;> simp
  · rw [if_neg hj]
    exact Or.inl rfl

theorem EmptyQ_InjQ (n : Nat) (byz : List Nat) (q : List (Option (List Wire)))
    (hq : EmptyQ q) : InjQ n byz q := by
  intro j bag hbag m hm
  rcases hq j with h | h
  · rw [h] at hbag
    exact absurd hbag (by simp)
  · rw [h] at hbag
    obtain rfl : bag = [] := by
      injection hbag with hb
      exact hb.symm
    simp at hm

theorem distribute_inj_InjQ (n : Nat) (byz : List Nat) (i : Nat) (w : Wire)
    (hw : InjShape n byz w) (q : List (Option (List Wire)))
    (hq : InjQ n byz q) : InjQ n byz (distribute i [w] q) := by
  intro j bag hbag m hm
  rw [getD_distribute] at hbag
  by_cases hj : j < q.length
  · rw [if_pos hj] at hbag
    by_cases hij : j = i
    · rw [if_pos hij] at hbag
      exact hq j bag hbag m hm
    · rw [if_neg hij] at hbag
      obtain rfl : (q.getD j none).getD [] ++ [w] = bag := by
        injection hbag with hb
      rcases List.mem_append.mp hm with h | h
      · rcases hb : q.getD j none with _ | bag0
        · rw [hb] at h
          simp at h
        · rw [hb] at h
          exact hq j bag0 hb m h
      · rw [List.mem_singleton] at h
        rw [h]
        exact hw
  · rw [if_neg hj] at hbag
    exact absurd hbag (by simp)

theorem sign_eq_mkWire (nd : Node) (m : Wire) (hnd : nd.node_id = Int.ofNat 0) :
    nd.sign m = mkWire m [0] := by
  unfold Node.sign mkWire
  rw [hnd]
  rfl

/-! ## One bag-processing call of the simulation -/

theorem recvAt_spec (n f : Nat) (byz : List Nat) (st : SimSt) (i : Nat)
    (hshape : NodeShape n f byz st.nodes) (hi : i < n)
    (hbag : ∀ bag, st.cur.getD i none = some bag → ∀ m ∈ bag,
       ∃ p sgl, '|' ∉ p ∧ sgl ≠ [] ∧ sgl.length ≤ f + 1 ∧ m = mkWire p sgl) :
    (recvAt st i).err = st.err ∧
    (recvAt st i).cur = st.cur ∧ (recvAt st i).nxt = st.nxt ∧
    (recvAt st i).ctr = st.ctr ∧
    NodeShape n f byz (recvAt st i).nodes ∧
    (∀ j, j ≠ i → (recvAt st i).nodes.getD j dummyNode = st.nodes.getD j dummyNode) ∧
    (∃ evs, (recvAt st i).trace = st.trace ++ evs ∧ ∀ e ∈ evs, goodEvent f e = true) ∧
    (∀ bag, st.cur.getD i none = some bag →
       Absorbed ((recvAt st i).nodes.getD i dummyNode) bag) := by
  rcases hq : st.cur.getD i none with _ | bag
  · have hred0 : recvAt st i = st := by
      simp only [recvAt, hq]
    rw [hred0]
    refine ⟨rfl, rfl, rfl, rfl, hshape, fun j _ => rfl, ⟨[], by simp, by simp⟩, ?_⟩
    intro bag2 hbag2
    exact absurd hbag2 (by simp)
  · obtain ⟨hnid, hnf, hnb⟩ := hshape.2 i hi
    obtain ⟨nd1, out, hrec, hout⟩ :=
      receive_shaped (st.nodes.getD i dummyNode) bag
        (fun p sgl => sgl.length ≤ f + 1)
        (fun m hm => by
          obtain ⟨p, sgl, h1, h2, h3, h4⟩ := hbag bag hq m hm
          exact ⟨p, sgl, h1, h2, h3, h4⟩)
    have hred : recvAt st i =
        { st with nodes := st.nodes.set i nd1,
                  trace := st.trace ++ Event.recv i bag :: out.map
                    (Event.emit (st.nodes.getD i dummyNode).is_byzantine i) } := by
      simp only [recvAt, hq, hrec]
    obtain ⟨hf1, hf2, hf3, hf4⟩ := receive_frame hrec
    have hlen : st.nodes.length = n := hshape.1
    refine ⟨by rw [hred], by rw [hred], by rw [hred], by rw [hred], ?_, ?_, ?_, ?_⟩
    · rw [hred]
      refine ⟨by simp [hlen], ?_⟩
      intro j hj
      by_cases hij : j = i
      · subst hij
        rw [getD_set_self _ _ _ dummyNode (by omega)]
        exact ⟨hf1.trans hnid, hf2.trans hnf, hf3.trans hnb⟩
      · rw [getD_set_ne _ _ _ _ dummyNode (fun hc => hij hc.symm)]
        exact hshape.2 j hj
    · intro j hj
      rw [hred]
      exact getD_set_ne _ _ _ _ dummyNode (fun hc => hj hc.symm)
    · refine ⟨Event.recv i bag :: out.map
        (Event.emit (st.nodes.getD i dummyNode).is_byzantine i), by rw [hred], ?_⟩
      intro e he
      rcases List.mem_cons.mp he with rfl | he2
      · rfl
      · obtain ⟨m', hm', rfl⟩ := List.mem_map.mp he2
        obtain ⟨p, sgl, hp, hne, hb1, rfl⟩ := hout m' hm'
        rcases hbz : (st.nodes.getD i dummyNode).is_byzantine with _ | _
        · show goodEvent f (Event.emit false i (mkWire p (sgl ++ [_]))) = true
          unfold goodEvent
          rw [decide_eq_true_eq]
          rw [chainLen_mkWire _ _ hp (by simp)]
          simp only [List.length_append, List.length_singleton]
          omega
        · rfl
    · intro bag2 hbag2
      obtain rfl : bag = bag2 := by injection hbag2
      rw [hred]
      rw [getD_set_self _ _ _ dummyNode (by omega)]
      exact receive_absorbed hrec

/-! ## The loops of one simulation round -/

theorem displayLoop_spec (n f : Nat) (byz : List Nat) (ids : List Nat) (st : SimSt)
    (hids : ∀ i ∈ ids, i < n) (hnodup : ids.Nodup)
    (herr : st.err = false) (hshape : NodeShape n f byz st.nodes)
    (htr : ∀ e ∈ st.trace, goodEvent f e = true)
    (hcur : BoundedQ f st.cur) :
    (ids.foldl displayStep st).err = false ∧
    (ids.foldl displayStep st).cur = st.cur ∧
    (ids.foldl displayStep st).nxt = st.nxt ∧
    (ids.foldl displayStep st).ctr = st.ctr ∧
    NodeShape n f byz (ids.foldl displayStep st).nodes ∧
    (∀ e ∈ (ids.foldl displayStep st).trace, goodEvent f e = true) ∧
    (∀ j, j ∉ ids → (ids.foldl displayStep st).nodes.getD j dummyNode
        = st.nodes.getD j dummyNode) ∧
    (∀ i ∈ ids, ∀ bag, st.cur.getD i none = some bag →
       Absorbed ((ids.foldl displayStep st).nodes.getD i dummyNode) bag) := by
  induction ids generalizing st with
  | nil => exact ⟨herr, rfl, rfl, rfl, hshape, htr, fun j _ => rfl, by simp⟩
  | cons i ids' ih =>
    obtain ⟨hi0, hnodup'⟩ := List.nodup_cons.mp hnodup
    have hds : displayStep st i = recvAt st i := by
      simp [displayStep, herr]
    obtain ⟨r1, r2, r3, r4, r5, r6, ⟨evs, r7, r8⟩, r9⟩ :=
      recvAt_spec n f byz st i hshape (hids i (List.mem_cons_self i ids'))
        (fun bag hb m hm => hcur i bag hb m hm)
    rw [List.foldl_cons, hds]
    obtain ⟨f1, f2, f3, f4, f5, f6, f7, f8⟩ :=
      ih (recvAt st i) (fun j hj => hids j (List.mem_cons_of_mem i hj)) hnodup'
        (r1.trans herr) r5
        (by
          rw [r7]
          intro e he
          rcases List.mem_append.mp he with h | h
          · exact htr e h
          · exact r8 e h)
        (by
          intro j bag hb m hm
          rw [r2] at hb
          exact hcur j bag hb m hm)
    refine ⟨f1, f2.trans r2, f3.trans r3, f4.trans r4, f5, f6, ?_, ?_⟩
    · intro j hj
      have hji : j ≠ i := fun hc => hj (hc ▸ List.mem_cons_self i ids')
      have hj' : j ∉ ids' := fun hc => hj (List.mem_cons_of_mem i hc)
      rw [f7 j hj', r6 j hji]
    · intro i2 hi2 bag hbag
      rcases List.mem_cons.mp hi2 with rfl | hmem
      · rw [f7 i2 hi0]
        exact r9 bag hbag
      · rw [← r2] at hbag
        exact f8 i2 hmem bag hbag

theorem round0Loop_spec (n f : Nat) (byz : List Nat) (ids : List Nat) (st : SimSt)
    (hids : ∀ i ∈ ids, i < n) (hnodup : ids.Nodup)
    (herr : st.err = false) (hshape : NodeShape n f byz st.nodes)
    (htr : ∀ e ∈ st.trace, goodEvent f e = true)
    (hcur : BoundedQ f st.cur) :
    (ids.foldl round0Step st).err = false ∧
    (ids.foldl round0Step st).cur = st.cur ∧
    (ids.foldl round0Step st).nxt = st.nxt ∧
    (ids.foldl round0Step st).ctr = st.ctr ∧
    NodeShape n f byz (ids.foldl round0Step st).nodes ∧
    (∀ e ∈ (ids.foldl round0Step st).trace, goodEvent f e = true) ∧
    (∀ j, j ∉ ids → (ids.foldl round0Step st).nodes.getD j dummyNode
        = st.nodes.getD j dummyNode) ∧
    (∀ i ∈ ids, i ≠ 0 → ∀ bag, st.cur.getD i none = some bag →
       Absorbed ((ids.foldl round0Step st).nodes.getD i dummyNode) bag) := by
  induction ids generalizing st with
  | nil => exact ⟨herr, rfl, rfl, rfl, hshape, htr, fun j _ => rfl, by simp⟩
  | cons i ids' ih =>
    obtain ⟨hi0, hnodup'⟩ := List.nodup_cons.mp hnodup
    by_cases hz : i = 0
    · subst hz
      have hds : round0Step st 0 = st := by
        simp [round0Step, herr]
      rw [List.foldl_cons, hds]
      obtain ⟨f1, f2, f3, f4, f5, f6, f7, f8⟩ :=
        ih st (fun j hj => hids j (List.mem_cons_of_mem 0 hj)) hnodup'
          herr hshape htr hcur
      refine ⟨f1, f2, f3, f4, f5, f6, ?_, ?_⟩
      · intro j hj
        exact f7 j (fun hc => hj (List.mem_cons_of_mem 0 hc))
      · intro i2 hi2 hne bag hbag
        rcases List.mem_cons.mp hi2 with rfl | hmem
        · exact absurd rfl hne
        · exact f8 i2 hmem hne bag hbag
    · have hds : round0Step st i = recvAt st i := by
        simp [round0Step, herr, hz]
      obtain ⟨r1, r2, r3, r4, r5, r6, ⟨evs, r7, r8⟩, r9⟩ :=
        recvAt_spec n f byz st i hshape (hids i (List.mem_cons_self i ids'))
          (fun bag hb m hm => hcur i bag hb m hm)
      rw [List.foldl_cons, hds]
      obtain ⟨f1, f2, f3, f4, f5, f6, f7, f8⟩ :=
        ih (recvAt st i) (fun j hj => hids j (List.mem_cons_of_mem i hj)) hnodup'
          (r1.trans herr) r5
          (by
            rw [r7]
            intro e he
            rcases List.mem_append.mp he with h | h
            · exact htr e h
            · exact r8 e h)
          (by
            intro j bag hb m hm
            rw [r2] at hb
            exact hcur j bag hb m hm)
      refine ⟨f1, f2.trans r2, f3.trans r3, f4.trans r4, f5, f6, ?_, ?_⟩
      · intro j hj
        have hji : j ≠ i := fun hc => hj (hc ▸ List.mem_cons_self i ids')
        have hj' : j ∉ ids' := fun hc => hj (List.mem_cons_of_mem i hc)
        rw [f7 j hj', r6 j hji]
      · intro i2 hi2 hne bag hbag
        rcases List.mem_cons.mp hi2 with rfl | hmem
        · rw [f7 i2 hi0]
          exact r9 bag hbag
        · rw [← r2] at hbag
          exact f8 i2 hmem hne bag hbag

theorem mainLoop_spec (adv : Nat → Nat) (n f : Nat) (byz : List Nat) (ids : List Nat)
    (st : SimSt)
    (hids : ∀ i ∈ ids, i < n)
    (herr : st.err = false) (hshape : NodeShape n f byz st.nodes)
    (htr : ∀ e ∈ st.trace, goodEvent f e = true)
    (habs : ∀ i, i < n → ∀ bag, st.cur.getD i none = some bag →
       Absorbed (st.nodes.getD i dummyNode) bag)
    (hnl : st.nxt.length = n) (hnxt : EmptyQ st.nxt) :
    (ids.foldl (mainStep adv) st).nodes = st.nodes ∧
    (ids.foldl (mainStep adv) st).cur = st.cur ∧
    (ids.foldl (mainStep adv) st).ctr = st.ctr ∧
    (ids.foldl (mainStep adv) st).err = false ∧
    (ids.foldl (mainStep adv) st).nxt.length = n ∧
    EmptyQ (ids.foldl (mainStep adv) st).nxt ∧
    (∀ e ∈ (ids.foldl (mainStep adv) st).trace, goodEvent f e = true) := by
  induction ids generalizing st with
  | nil => exact ⟨rfl, rfl, rfl, herr, hnl, hnxt, htr⟩
  | cons i ids' ih =>
    have hi : i < n := hids i (List.mem_cons_self i ids')
    rw [List.foldl_cons]
    rcases hq : st.cur.getD i none with _ | bag
    · have hms : mainStep adv st i = st := by
        unfold mainStep
        rw [herr, if_neg Bool.false_ne_true]
        simp only [hq]
      rw [hms]
      exact ih st (fun j hj => hids j (List.mem_cons_of_mem i hj))
        herr hshape htr habs hnl hnxt
    · have habsi := habs i hi bag hq
      have hms : mainStep adv st i =
          { st with nxt := distribute i [] st.nxt,
                    trace := st.trace ++ [Event.recv i bag] } := by
        unfold mainStep
        rw [herr, if_neg Bool.false_ne_true]
        simp only [hq]
        simp only [show (st.nodes.getD i dummyNode).receive bag
            = .ok (st.nodes.getD i dummyNode, []) from habsi]
        simp only [List.isEmpty_nil, Bool.not_true, Bool.and_false,
          Bool.false_eq_true, if_false, List.map_nil]
        rw [set_getD_self st.nodes i dummyNode (by rw [hshape.1]; omega)]
      rw [hms]
      refine ih _ (fun j hj => hids j (List.mem_cons_of_mem i hj)) herr hshape ?_ habs
        (by rw [length_distribute, hnl]) (distribute_nil_EmptyQ i _ hnxt)
      intro e he
      rcases List.mem_append.mp he with h | h
      · exact htr e h
      · rw [List.mem_singleton] at h
        rw [h]
        rfl

theorem injLoop_spec (adv : Nat → Nat) (n f : Nat) (byz : List Nat) (ids : List Nat)
    (st : SimSt)
    (hids : ∀ i ∈ ids, i < n)
    (herr : st.err = false) (hshape : NodeShape n f byz st.nodes)
    (hinj : InjQ n byz st.nxt) (hnl : st.nxt.length = n) :
    (ids.foldl (injStep adv) st).nodes = st.nodes ∧
    (ids.foldl (injStep adv) st).cur = st.cur ∧
    (ids.foldl (injStep adv) st).trace = st.trace ∧
    (ids.foldl (injStep adv) st).err = false ∧
    (ids.foldl (injStep adv) st).nxt.length = n ∧
    InjQ n byz (ids.foldl (injStep adv) st).nxt := by
  induction ids generalizing st with
  | nil => exact ⟨rfl, rfl, rfl, herr, hnl, hinj⟩
  | cons i ids' ih =>
    have hi : i < n := hids i (List.mem_cons_self i ids')
    obtain ⟨hnid, hnf, hnb⟩ := hshape.2 i hi
    rw [List.foldl_cons]
    by_cases hb : (st.nodes.getD i dummyNode).is_byzantine = true
    · by_cases hcoin : randCoin adv st.ctr = true
      · have hms : injStep adv st i =
            { st with ctr := st.ctr + 2,
                      nxt := distribute i
                        [mkWire (randChoice adv (st.ctr + 1) injectPool)
                          [0, (st.nodes.getD i dummyNode).node_id]] st.nxt } := by
          unfold injStep
          rw [herr, if_neg Bool.false_ne_true]
          rw [if_pos hb, if_pos hcoin]
        rw [hms]
        refine ih _ (fun j hj => hids j (List.mem_cons_of_mem i hj)) herr hshape
          ?_ (by rw [length_distribute, hnl])
        refine distribute_inj_InjQ n byz i _ ?_ _ hinj
        refine ⟨randChoice adv (st.ctr + 1) injectPool, i,
          injectPool_no_pipe _, hi, ?_, ?_⟩
        · rw [← hnb]
          exact hb
        · rw [hnid]
      · have hms : injStep adv st i = { st with ctr := st.ctr + 1 } := by
          unfold injStep
          rw [herr, if_neg Bool.false_ne_true]
          rw [if_pos hb, if_neg hcoin]
        rw [hms]
        exact ih _ (fun j hj => hids j (List.mem_cons_of_mem i hj)) herr hshape hinj hnl
    · have hms : injStep adv st i = st := by
        unfold injStep
        rw [herr, if_neg Bool.false_ne_true]
        rw [if_neg hb]
      rw [hms]
      exact ih _ (fun j hj => hids j (List.mem_cons_of_mem i hj)) herr hshape hinj hnl

/-! ## One full round preserves the invariant -/

theorem InjQ_BoundedQ (n f : Nat) (byz : List Nat) (q : List (Option (List Wire)))
    (hq : InjQ n byz q) (hbyz : byzCount n byz ≤ f) : BoundedQ f q := by
  intro j bag hb m hm
  obtain ⟨v, b, hv, hbn, hbc, rfl⟩ := hq j bag hb m hm
  refine ⟨v, [0, Int.ofNat b], hv, by simp, ?_, rfl⟩
  have hpos := byzCount_pos n byz b hbn hbc
  simp only [List.length_cons, List.length_nil]
  omega

theorem roundStep_Inv (adv : Nat → Nat) (n f : Nat) (byz : List Nat) (st : SimSt)
    (hInv : Inv n f byz st) (hbyz : byzCount n byz ≤ f) :
    Inv n f byz (roundStep adv n st) := by
  obtain ⟨herr, hshape, htr, habs⟩ := hInv
  obtain ⟨m1, m2, m3, m4, m5, m6, m7⟩ :=
    mainLoop_spec adv n f byz (List.range n) { st with nxt := List.replicate n none }
      (fun i hi => List.mem_range.mp hi) herr hshape htr habs
      (by simp) (fun j => Or.inl (getD_replicate_none n j))
  obtain ⟨i1, i2, i3, i4, i5, i6⟩ :=
    injLoop_spec adv n f byz (List.range n)
      ((List.range n).foldl (mainStep adv) { st with nxt := List.replicate n none })
      (fun i hi => List.mem_range.mp hi) m4 (by rw [m1]; exact hshape)
      (EmptyQ_InjQ n byz _ m6) m5
  obtain ⟨d1, d2, d3, d4, d5, d6, d7, d8⟩ :=
    displayLoop_spec n f byz (List.range n)
      { (List.range n).foldl (injStep adv)
          ((List.range n).foldl (mainStep adv) { st with nxt := List.replicate n none })
        with cur :=
          ((List.range n).foldl (injStep adv)
            ((List.range n).foldl (mainStep adv)
              { st with nxt := List.replicate n none })).nxt }
      (fun i hi => List.mem_range.mp hi) (List.nodup_range n)
      i4 (by rw [i1, m1]; exact hshape)
      (by
        intro e he
        rw [i3] at he
        exact m7 e he)
      (InjQ_BoundedQ n f byz _ i6 hbyz)
  show Inv n f byz ((List.range n).foldl displayStep _)
  refine ⟨d1, d5, d6, ?_⟩
  intro i hi bag hbag
  rw [d2] at hbag
  exact d8 i (List.mem_range.mpr hi) bag hbag

theorem roundsFold_Inv (adv : Nat → Nat) (n f : Nat) (byz : List Nat)
    (l : List Nat) (st : SimSt) (hInv : Inv n f byz st)
    (hbyz : byzCount n byz ≤ f) :
    Inv n f byz (l.foldl (fun s _ => roundStep adv n s) st) := by
  induction l generalizing st with
  | nil => exact hInv
  | cons _ t ih =>
    rw [List.foldl_cons]
    exact ih _ (roundStep_Inv adv n f byz st hInv hbyz)

/-! ## Round 0 -/

theorem byzR0_fold (adv : Nat → Nat) (n : Nat) (sender : Node)
    (hsid : sender.node_id = Int.ofNat 0)
    (l : List Nat) (hl : ∀ i ∈ l, i < n)
    (acc : List (Nat × Wire) × Nat)
    (hacc : ∀ rm ∈ acc.1, rm.1 ≠ 0 ∧ rm.1 < n ∧
      ∃ val, '|' ∉ val ∧ rm.2 = mkWire val [0]) :
    ∀ rm ∈ (l.foldl (byzR0Step adv sender) acc).1,
      rm.1 ≠ 0 ∧ rm.1 < n ∧ ∃ val, '|' ∉ val ∧ rm.2 = mkWire val [0] := by
  induction l generalizing acc with
  | nil => exact hacc
  | cons i t ih =>
    rw [List.foldl_cons]
    by_cases hz : i = 0
    · have hstep : byzR0Step adv sender acc i = acc := by
        unfold byzR0Step
        rw [if_pos hz]
      rw [hstep]
      exact ih (fun j hj => hl j (List.mem_cons_of_mem i hj)) acc hacc
    · have hstep : byzR0Step adv sender acc i =
          (acc.1 ++ [(i, sender.sign (randChoice adv acc.2 (equivPool i)))], acc.2 + 1) := by
        unfold byzR0Step
        rw [if_neg hz]
      rw [hstep]
      refine ih (fun j hj => hl j (List.mem_cons_of_mem i hj)) _ ?_
      intro rm hrm
      rcases List.mem_append.mp hrm with h | h
      · exact hacc rm h
      · rw [List.mem_singleton] at h
        subst h

        refine ⟨hz, hl i (List.mem_cons_self i t), randChoice adv acc.2 (equivPool i), ?_, ?_⟩
        · show '|' ∉ (equivPool i).getD _ []
          exact equivPool_no_pipe i _
        · exact sign_eq_mkWire sender _ hsid

theorem round0Msgs_spec (adv : Nat → Nat) (n f : Nat) (byz : List Nat) (value : Wire)
    (hn : 1 ≤ n) (hv : '|' ∉ value) :
    ∀ rm ∈ (round0Msgs adv n (mkNodes n f byz) value).1,
      rm.1 ≠ 0 ∧ rm.1 < n ∧ ∃ val, '|' ∉ val ∧ rm.2 = mkWire val [0] := by
  have hsid : ((mkNodes n f byz).getD 0 dummyNode).node_id = Int.ofNat 0 :=
    ((mkNodes_shape n f byz).2 0 hn).1
  unfold round0Msgs
  by_cases hsb : ((mkNodes n f byz).getD 0 dummyNode).is_byzantine = true
  · rw [if_pos hsb]
    exact byzR0_fold adv n _ hsid (List.range n) (fun i hi => List.mem_range.mp hi)
      ([], 0) (by simp)
  · rw [if_neg hsb]
    intro rm hrm
    obtain ⟨i, hi, heq⟩ := List.mem_filterMap.mp hrm
    by_cases hz : i = 0
    · rw [if_pos hz] at heq
      exact Option.noConfusion heq
    · rw [if_neg hz] at heq
      obtain rfl : (i, (propose adv 0 ((mkNodes n f byz).getD 0 dummyNode) value).1) = rm := by
        injection heq
      have hprop : (propose adv 0 ((mkNodes n f byz).getD 0 dummyNode) value).1
          = ((mkNodes n f byz).getD 0 dummyNode).sign value := by
        unfold propose
        rw [if_neg hsb]
      refine ⟨hz, List.mem_range.mp hi, value, hv, ?_⟩
      show (propose adv 0 ((mkNodes n f byz).getD 0 dummyNode) value).1 = mkWire value [0]
      rw [hprop]
      exact sign_eq_mkWire _ _ hsid

theorem buildQueuesAux_spec (n : Nat) (P : Nat → Wire → Prop)
    (msgs : List (Nat × Wire)) (q0 : List (Option (List Wire)))
    (hlen : q0.length = n) (hz : q0.getD 0 none = none)
    (hq0 : ∀ j bag, q0.getD j none = some bag → ∀ m ∈ bag, P j m)
    (hmsgs : ∀ rm ∈ msgs, rm.1 ≠ 0 ∧ rm.1 < n ∧ P rm.1 rm.2) :
    (msgs.foldl deliverStep q0).length = n ∧
    (msgs.foldl deliverStep q0).getD 0 none = none ∧
    (∀ j bag, (msgs.foldl deliverStep q0).getD j none = some bag →
      ∀ m ∈ bag, P j m) := by
  induction msgs generalizing q0 with
  | nil => exact ⟨hlen, hz, hq0⟩
  | cons rm rest ih =>
    obtain ⟨h0, hlt, hP⟩ := hmsgs rm (List.mem_cons_self rm rest)
    rw [List.foldl_cons]
    refine ih _ ?_ ?_ ?_ (fun r hr => hmsgs r (List.mem_cons_of_mem _ hr))
    · rw [show deliverStep q0 rm
          = q0.set rm.1 (some ((q0.getD rm.1 none).getD [] ++ [rm.2])) from rfl]
      rw [List.length_set, hlen]
    · rw [show deliverStep q0 rm
          = q0.set rm.1 (some ((q0.getD rm.1 none).getD [] ++ [rm.2])) from rfl]
      rw [getD_set_ne _ _ _ _ _ h0]
      exact hz
    · intro j bag hbag m hm
      rw [show deliverStep q0 rm
          = q0.set rm.1 (some ((q0.getD rm.1 none).getD [] ++ [rm.2])) from rfl] at hbag
      by_cases hj : j = rm.1
      · subst hj
        rw [getD_set_self _ _ _ _ (by rw [hlen]; exact hlt)] at hbag
        obtain rfl : (q0.getD rm.1 none).getD [] ++ [rm.2] = bag := by injection hbag
        rcases List.mem_append.mp hm with h | h
        · rcases hb0 : q0.getD rm.1 none with _ | bag0
          · rw [hb0] at h
            simp at h
          · rw [hb0] at h
            exact hq0 rm.1 bag0 hb0 m h
        · rw [List.mem_singleton] at h
          rw [h]
          exact hP
      · rw [getD_set_ne _ _ _ _ _ (fun hc => hj hc.symm)] at hbag
        exact hq0 j bag hbag m hm

/-- C3 main engine: every event of a full agents-simulation run under a
valid configuration respects the bounded-chain property. -/
theorem runAgents_trace_good (n f : Nat) (byz : List Nat) (value : Wire)
    (adv : Nat → Nat)
    (hn : 1 ≤ n) (hbyz : byzCount n byz ≤ f) (hv : '|' ∉ value) :
    ∀ e ∈ (runAgents n f byz value adv).trace, goodEvent f e = true := by
  have hmsgs := round0Msgs_spec adv n f byz value hn hv
  obtain ⟨hb1, hb2, hb3⟩ :=
    buildQueuesAux_spec n (fun j m => ∃ val, '|' ∉ val ∧ m = mkWire val [0])
      (round0Msgs adv n (mkNodes n f byz) value).1 (List.replicate n none)
      (by simp) (getD_replicate_none n 0)
      (by
        intro j bag hbag
        rw [getD_replicate_none] at hbag
        exact absurd hbag (by simp))
      hmsgs
  have hb2x : (buildQueues n
      (round0Msgs adv n (mkNodes n f byz) value).1).getD 0 none = none := hb2
  have hb3x : ∀ j bag, (buildQueues n
        (round0Msgs adv n (mkNodes n f byz) value).1).getD j none = some bag →
      ∀ m ∈ bag, ∃ val, '|' ∉ val ∧ m = mkWire val [0] := hb3
  obtain ⟨g1, g2, g3, g4, g5, g6, g7, g8⟩ :=
    round0Loop_spec n f byz (List.range n)
      ⟨mkNodes n f byz,
       buildQueues n (round0Msgs adv n (mkNodes n f byz) value).1,
       List.replicate n none, (round0Msgs adv n (mkNodes n f byz) value).2, [], false⟩
      (fun i hi => List.mem_range.mp hi) (List.nodup_range n)
      rfl (mkNodes_shape n f byz) (by simp)
      (by
        intro j bag hbag m hm
        obtain ⟨val, hval, rfl⟩ := hb3x j bag hbag m hm
        exact ⟨val, [0], hval, by simp, by simp, rfl⟩)
  have hInv1 : Inv n f byz ((List.range n).foldl round0Step
      ⟨mkNodes n f byz,
       buildQueues n (round0Msgs adv n (mkNodes n f byz) value).1,
       List.replicate n none, (round0Msgs adv n (mkNodes n f byz) value).2, [], false⟩) := by
    refine ⟨g1, g5, g6, ?_⟩
    intro i hi bag hbag
    rw [g2] at hbag
    by_cases hz : i = 0
    · subst hz
      rw [show (⟨mkNodes n f byz,
          buildQueues n (round0Msgs adv n (mkNodes n f byz) value).1,
          List.replicate n none, (round0Msgs adv n (mkNodes n f byz) value).2, [], false⟩
            : SimSt).cur = buildQueues n (round0Msgs adv n (mkNodes n f byz) value).1
          from rfl] at hbag
      rw [hb2x] at hbag
      exact absurd hbag (by simp)
    · exact g8 i (List.mem_range.mpr hi) hz bag hbag
  have hInvF := roundsFold_Inv adv n f byz (List.range (f + 1)) _ hInv1 hbyz
  intro e he
  exact hInvF.2.2.1 e he

/-! ## The exception path of receive -/

theorem pyIntList_error_iff (l : List Wire) :
    (∃ e, pyIntList l = .error e) ↔ ∃ fld ∈ l, pyInt fld = none := by
  induction l with
  | nil =>
    constructor
    · rintro ⟨e, he⟩
      exact Except.noConfusion he
    · rintro ⟨fld, h, _⟩
      simp at h
  | cons s rest ih =>
    rcases hs : pyInt s with _ | v
    · constructor
      · intro _
        exact ⟨s, List.mem_cons_self s rest, hs⟩
      · intro _
        refine ⟨s, ?_⟩
        simp only [pyIntList, hs]
    · rcases hr : pyIntList rest with e | vs
      · constructor
        · intro _
          obtain ⟨fld, hf, hn⟩ := ih.mp ⟨e, hr⟩
          exact ⟨fld, List.mem_cons_of_mem _ hf, hn⟩
        · intro _
          refine ⟨e, ?_⟩
          simp only [pyIntList, hs, hr]
      · constructor
        · rintro ⟨e, he⟩
          simp only [pyIntList, hs, hr] at he
          exact Except.noConfusion he
        · rintro ⟨fld, hf, hn⟩
          rcases List.mem_cons.mp hf with rfl | hf2
          · rw [hs] at hn
            exact Option.noConfusion hn
          · obtain ⟨e, he⟩ := ih.mpr ⟨fld, hf2, hn⟩
            rw [he] at hr
            exact Except.noConfusion hr

theorem receiveMsg_error_iff (nd : Node) (msg : Wire) :
    (∃ e, nd.receiveMsg msg = .error e) ↔
      (2 ≤ (splitPipe msg).length ∧
        ∃ fld ∈ (splitPipe msg).drop 1, pyInt fld = none) := by
  rcases hsp : splitPipe msg with _ | ⟨payload, _ | ⟨sfirst, srest⟩⟩ <;>
    simp only [Node.receiveMsg, hsp]
  · constructor
    · rintro ⟨e, he⟩
      exact Except.noConfusion he
    · rintro ⟨hlen, _⟩
      simp at hlen
  · constructor
    · rintro ⟨e, he⟩
      exact Except.noConfusion he
    · rintro ⟨hlen, _⟩
      simp at hlen
  · constructor
    · rintro ⟨e, he⟩
      rcases hil : pyIntList (sfirst :: srest) with e2 | sgl <;> simp only [hil] at he
      · refine ⟨by simp, ?_⟩
        obtain ⟨fld, hf, hn⟩ := (pyIntList_error_iff (sfirst :: srest)).mp ⟨e2, hil⟩
        exact ⟨fld, by simpa using hf, hn⟩
      · exfalso
        split at he
        · exact Except.noConfusion he
        · split at he
          · exact Except.noConfusion he
          · split at he
            · exact Except.noConfusion he
            · split at he
              · exact Except.noConfusion he
              · exact Except.noConfusion he
    · rintro ⟨hlen, fld, hfmem, hfnone⟩
      obtain ⟨e, he⟩ := (pyIntList_error_iff (sfirst :: srest)).mpr
        ⟨fld, by simpa using hfmem, hfnone⟩
      refine ⟨e, ?_⟩
      simp only [he]

theorem pyIntList_cons_shape {s : Wire} {rest : List Wire} {sgl : List Int}
    (h : pyIntList (s :: rest) = .ok sgl) :
    ∃ v vs, sgl = v :: vs ∧ pyInt s = some v := by
  rcases hs : pyInt s with _ | v <;> simp only [pyIntList, hs] at h
  · exact Except.noConfusion h
  · rcases hr : pyIntList rest with e | vs <;> simp only [hr] at h
    · exact Except.noConfusion h
    · injection h with h1
      exact ⟨v, vs, h1.symm, rfl⟩

/-! ## Claim theorems -/

/-- C1: the claim states that in every configuration with at most f
Byzantine parties and any modeled adversary behavior, all honest parties
decide the same payload.  The code violates it: with 4 agents, f = 1,
Byzantine set containing only agent 3, an honest sender proposing the
token buy, and an adversary stream that fires a single injection of the
pool token panic in round 1, the run completes without exception, agents
0 and 1 are both honest, yet agent 0 decides panic while agent 1 decides
the default 0. -/
theorem c1_agreement_violated :
    byzCount 4 [3] ≤ 1 ∧
    ([3] : List Nat).contains 0 = false ∧
    ([3] : List Nat).contains 1 = false ∧
    (runAgents 4 1 [3] (lit "buy") advInj).err = false ∧
    (runAgents 4 1 [3] (lit "buy") advInj).decisions.getD 0 [] = lit "panic" ∧
    (runAgents 4 1 [3] (lit "buy") advInj).decisions.getD 1 [] = lit "0" ∧
    lit "panic" ≠ lit "0" := by
  refine ⟨by decide, by decide, by decide, rfl, rfl, rfl, by decide⟩

/-- C2: the claim states that with an honest sender proposing v every
honest party decides v.  The code violates it even with no Byzantine
party at all: with 3 agents, f = 1, empty Byzantine set and proposed
value buy, the honest sender (agent 0) never populates its own extracted
set, so it decides the default 0 while honest agent 1 decides buy. -/
theorem c2_validity_violated :
    ((mkNodes 3 1 []).getD 0 dummyNode).is_byzantine = false ∧
    byzCount 3 [] = 0 ∧
    (runAgents 3 1 [] (lit "buy") advQuiet).err = false ∧
    (runAgents 3 1 [] (lit "buy") advQuiet).decisions.getD 0 [] = lit "0" ∧
    (runAgents 3 1 [] (lit "buy") advQuiet).decisions.getD 1 [] = lit "buy" ∧
    lit "0" ≠ lit "buy" := by
  refine ⟨by decide, by decide, rfl, rfl, rfl, by decide⟩

/-- C3: in any round of any agents-simulation run under a valid
configuration (at least one agent, at most f Byzantine ids among the
participants, pipe-free initial value), every message an honest party
emits from its receive/relay routine carries a signer chain of length at
most f+2. -/
theorem c3_honest_bounded_chains (n f : Nat) (byz : List Nat) (value : Wire)
    (adv : Nat → Nat)
    (hn : 1 ≤ n) (hbyz : byzCount n byz ≤ f) (hv : '|' ∉ value)
    (i : Nat) (m : Wire)
    (hmem : Event.emit false i m ∈ (runAgents n f byz value adv).trace) :
    chainLen m ≤ f + 2 := by
  have h := runAgents_trace_good n f byz value adv hn hbyz hv _ hmem
  exact of_decide_eq_true h

/-- C3 witness: in the concrete honest-sender run with 3 agents and f = 1,
agent 1 emits the relay with chain 0, 1 and its chain length is within
the bound. -/
theorem c3_witness : chainLen (lit "buy|0|1") ≤ 1 + 2 :=
  c3_honest_bounded_chains 3 1 [] (lit "buy") advQuiet (by decide) (by decide)
    (by decide) 1 (lit "buy|0|1") (by decide)

/-- C4 counterexample: the harness configured with sender_id = 1 still
lets its honest node 2 admit the message v-signed-by-0, whose chain
originates at 0, not at the configured sender 1; the claim that admission
requires the first signer to equal the configured sender_id is false. -/
theorem c4_counterexample :
    (dsInit 4 1 [] 1).sender_id = 1 ∧
    (dsInit 4 1 [] 1).nodes.getD 2 dummyNode = ⟨2, 1, false, []⟩ ∧
    ((⟨2, 1, false, []⟩ : Node).receive [lit "v|0"]
      = .ok (⟨2, 1, false, [lit "v"]⟩, [lit "v|0|2"])) ∧
    pyIntList ((splitPipe (lit "v|0")).drop 1) = .ok [0] ∧
    (0 : Int) ≠ (1 : Int) :=
  ⟨rfl, rfl, rfl, rfl, by decide⟩

/-- C4 amended: an honest receive admits a message (changes extracted)
only if the parsed signer chain starts with the literal id 0 (the default
sender), regardless of the configured sender_id. -/
theorem c4_admission_requires_origin_zero (nd : Node) (msg : Wire)
    (nd1 : Node) (out : List Wire)
    (h : nd.receiveMsg msg = .ok (nd1, out))
    (hchg : nd1.extracted ≠ nd.extracted) :
    ∃ p s rest sgl, splitPipe msg = p :: s :: rest ∧
      pyIntList (s :: rest) = .ok sgl ∧ sgl.head? = some 0 := by
  rcases hsp : splitPipe msg with _ | ⟨payload, _ | ⟨sfirst, srest⟩⟩ <;>
    simp only [Node.receiveMsg, hsp] at h
  · obtain ⟨rfl, rfl⟩ := ok_pair_inj h
    exact absurd rfl hchg
  · obtain ⟨rfl, rfl⟩ := ok_pair_inj h
    exact absurd rfl hchg
  · rcases hil : pyIntList (sfirst :: srest) with e | sgl <;> simp only [hil] at h
    · exact Except.noConfusion h
    · by_cases hv : nd.verify msg = false
      · rw [if_pos hv] at h
        obtain ⟨rfl, rfl⟩ := ok_pair_inj h
        exact absurd rfl hchg
      · rw [if_neg hv] at h
        by_cases hg : 0 < sgl.length ∧ sgl.headD 0 ≠ 0
        · rw [if_pos hg] at h
          obtain ⟨rfl, rfl⟩ := ok_pair_inj h
          exact absurd rfl hchg
        · obtain ⟨v, vs, rfl, _⟩ := pyIntList_cons_shape hil
          have hv0 : v = 0 := by
            by_contra hne
            exact hg ⟨by simp, by simpa using hne⟩
          exact ⟨payload, sfirst, srest, v :: vs, rfl, hil, by rw [hv0]; rfl⟩

/-- C4 amended witness: node 2 admits the message v-signed-by-0 and its
chain indeed starts with 0. -/
theorem c4_amended_witness :
    ∃ p s rest sgl, splitPipe (lit "v|0") = p :: s :: rest ∧
      pyIntList (s :: rest) = .ok sgl ∧ sgl.head? = some 0 :=
  c4_admission_requires_origin_zero ⟨2, 1, false, []⟩ (lit "v|0")
    ⟨2, 1, false, [lit "v"]⟩ [lit "v|0|2"] rfl (by decide)

/-- C5: two agents-simulation runs with identical parameters (agent
count, fault bound, Byzantine set, proposed value) and an identical
pseudo-random draw stream produce identical per-party decisions and
identical per-party final extracted sets.  The stream models the seedable
pseudo-random source of the specification: a fixed seed fixes the stream. -/
theorem c5_determinism (n1 n2 f1 f2 : Nat) (b1 b2 : List Nat) (v1 v2 : Wire)
    (a1 a2 : Nat → Nat)
    (hn : n1 = n2) (hf : f1 = f2) (hb : b1 = b2) (hv : v1 = v2)
    (ha : ∀ k, a1 k = a2 k) :
    (runAgents n1 f1 b1 v1 a1).decisions = (runAgents n2 f2 b2 v2 a2).decisions ∧
    (runAgents n1 f1 b1 v1 a1).nodes.map Node.extracted
      = (runAgents n2 f2 b2 v2 a2).nodes.map Node.extracted := by
  subst hn
  subst hf
  subst hb
  subst hv
  have ha2 : a1 = a2 := funext ha
  subst ha2
  exact ⟨rfl, rfl⟩

/-- C5 witness at a concrete configuration. -/
theorem c5_witness :
    (runAgents 3 1 [2] (lit "buy") advQuiet).decisions
      = (runAgents 3 1 [2] (lit "buy") advQuiet).decisions ∧
    (runAgents 3 1 [2] (lit "buy") advQuiet).nodes.map Node.extracted
      = (runAgents 3 1 [2] (lit "buy") advQuiet).nodes.map Node.extracted :=
  c5_determinism 3 3 1 1 [2] [2] (lit "buy") (lit "buy") advQuiet advQuiet
    rfl rfl rfl rfl (fun _ => rfl)

/-- C6: the claim states each inbound bag goes through receive exactly
once per round and no message is processed twice.  The code violates it:
in the concrete honest run with 3 agents and f = 1, agent 1's round-0 bag
holding the single message buy-signed-by-0 is passed through its receive
routine twice (once in the round-0 processing block, once again at the
start of round 1), as witnessed by two identical receive events in the
trace. -/
theorem c6_bag_processed_twice :
    (runAgents 3 1 [] (lit "buy") advQuiet).err = false ∧
    (runAgents 3 1 [] (lit "buy") advQuiet).trace.count
      (Event.recv 1 [lit "buy|0"]) = 2 := by
  refine ⟨rfl, by decide⟩

/-- C7: the decision rule returns the unique extracted payload when the
extracted set is a singleton, and the default token 0 otherwise. -/
theorem c7_decide_rule (nd : Node) :
    (∀ v, nd.extracted = [v] → nd.decide = v) ∧
    (nd.extracted.length ≠ 1 → nd.decide = lit "0") := by
  constructor
  · intro v h
    unfold Node.decide
    rw [h]
  · intro h
    unfold Node.decide
    rcases hx : nd.extracted with _ | ⟨a, _ | ⟨b, t⟩⟩
    · rfl
    · rw [hx] at h
      simp at h
    · rfl

/-- C7 witness at concrete nodes. -/
theorem c7_witness :
    (⟨5, 1, false, [lit "buy"]⟩ : Node).decide = lit "buy" ∧
    (⟨5, 1, false, []⟩ : Node).decide = lit "0" :=
  ⟨(c7_decide_rule ⟨5, 1, false, [lit "buy"]⟩).1 (lit "buy") rfl,
   (c7_decide_rule ⟨5, 1, false, []⟩).2 (by decide)⟩

/-- C8: on a valid serialized inbound message (pipe-free payload,
nonempty duplicate-free chain of at most f+2 signers starting at 0): an
already-extracted payload yields no relay and no state change; a new
payload is added to extracted and, exactly when the own id is not in the
chain, exactly one countersigned relay is emitted. -/
theorem c8_receive_relay_rule (nd : Node) (p : Wire) (sgl : List Int)
    (hp : '|' ∉ p) (hne : sgl ≠ []) (hnd : sgl.Nodup)
    (hlen : sgl.length ≤ nd.f + 2) (h0 : sgl.headD 0 = 0) :
    (p ∈ nd.extracted → nd.receiveMsg (mkWire p sgl) = .ok (nd, [])) ∧
    (p ∉ nd.extracted → nd.node_id ∈ sgl →
      nd.receiveMsg (mkWire p sgl)
        = .ok ({ nd with extracted := nd.extracted ++ [p] }, [])) ∧
    (p ∉ nd.extracted → nd.node_id ∉ sgl →
      nd.receiveMsg (mkWire p sgl)
        = .ok ({ nd with extracted := nd.extracted ++ [p] },
            [mkWire p (sgl ++ [nd.node_id])])) := by
  rw [receiveMsg_mkWire nd p sgl hp hne]
  rw [if_neg (not_not_intro ⟨hnd, hlen⟩), if_neg (fun hc => hc h0)]
  refine ⟨?_, ?_, ?_⟩
  · intro hmem
    rw [if_pos hmem]
  · intro hmem hid
    rw [if_neg hmem, if_pos hid]
  · intro hmem hid
    rw [if_neg hmem, if_neg hid]

/-- C8 witness: node 3 receives a fresh valid message with chain 0, 1 and
relays it with its countersignature appended. -/
theorem c8_witness :
    (⟨3, 1, false, []⟩ : Node).receiveMsg (mkWire (lit "buy") [0, 1])
      = .ok (⟨3, 1, false, [lit "buy"]⟩, [mkWire (lit "buy") [0, 1, 3]]) :=
  (c8_receive_relay_rule ⟨3, 1, false, []⟩ (lit "buy") [0, 1]
    (by decide) (by decide) (by decide) (by decide) (by decide)).2.2
    (by decide) (by decide)

/-- C9: the claim states that invalid configurations are rejected at
harness entry before any round runs.  The code violates it: the harness
constructor performs no validation and the run executes to completion.
Here total_nodes = 2 with f = 1 (violating total >= f+2) and a Byzantine
id 5 outside the participants; the full protocol nevertheless runs and
returns decisions. -/
theorem c9_no_config_validation :
    2 < 1 + 2 ∧
    (5 ∈ ([5] : List Nat) ∧ ¬ 5 < 2) ∧
    ((dsInit 2 1 [5] 0).run_consensus (lit "buy")).map Prod.snd
      = .ok [lit "buy", lit "buy"] :=
  ⟨by decide, ⟨by decide, by decide⟩, rfl⟩

/-- C10: receive is total exactly on bags whose messages either have
fewer than two pipe-separated fields or have all fields after the first
parse as decimal integers; a message with at least two fields and a
non-integer signer field makes receive raise (return an error) instead of
discarding the message. -/
theorem c10_receive_total_iff (nd : Node) (msg : Wire) :
    (∃ e, nd.receive [msg] = .error e) ↔
      (2 ≤ (splitPipe msg).length ∧
        ∃ fld ∈ (splitPipe msg).drop 1, pyInt fld = none) := by
  rw [← receiveMsg_error_iff nd msg]
  constructor
  · rintro ⟨e, he⟩
    rcases hr : nd.receiveMsg msg with e2 | ⟨nd1, out1⟩
    · exact ⟨e2, rfl⟩
    · exfalso
      rw [receive_cons] at he
      simp only [hr, Node.receive] at he
      exact Except.noConfusion he
  · rintro ⟨e2, hr⟩
    refine ⟨e2, ?_⟩
    rw [receive_cons]
    simp only [hr]

/-- C10 witness: a payload containing the pipe character produces a
non-integer signer field and receive raises on it. -/
theorem c10_witness :
    ∃ e, (⟨1, 1, false, []⟩ : Node).receive [lit "a|b|0"] = .error e :=
  (c10_receive_total_iff ⟨1, 1, false, []⟩ (lit "a|b|0")).mpr
    ⟨by decide, lit "b", by decide, by decide⟩

end DolevStrong
